import Mathlib

/-!
A verification development for a 2048-style game engine and its AI strategies.

The embedding covers:
* the `GameManager` move resolution (slide/merge traversal, legality probe
  `tryMove`, `movesAvailable`, terminated-state guard) translated from the
  game-manager source file;
* the `NaiveStrategy`, `AdvancedStrategy` (expectimax) and `MasterStrategy`
  (alpha-beta with sampled chance layer) from `strategies.js`.

Modelling conventions:
* JS numbers are modelled as `Int` for tile values, coordinates and scores,
  and as `Rat` for heuristic evaluations (JS doubles 0.9/0.1/1.5 are modelled
  as the exact rationals they denote; all tile values reachable in the game
  are powers of two, where `Math.log2` is exact and is modelled by a fuelled
  binary logarithm).
* `Math.random` is modelled by explicit oracle parameters: a spawn oracle for
  the random tile after a move, and a sampler function for the random cell
  sample in the alpha-beta chance layer.
* The `Grid`/`Tile` classes themselves are not part of the given sources
  (only their callers are); they are modelled from the spec, marked below.
-/

namespace Game2048

/-- A board position `(x, y)`; JS objects `{x, y}` with number fields. -/
abbrev Pos := Int × Int

/-- Pointwise addition of a position and a vector. -/
def padd (p q : Pos) : Pos := (p.1 + q.1, p.2 + q.2)

/-- Scalar multiple of a vector by a natural number. -/
def psmul (j : Nat) (v : Pos) : Pos := ((j : Int) * v.1, (j : Int) * v.2)

/-- Modelled from the spec: a `Tile` (class `Tile`, not under the given
sources) has a mutable position, a value, a saved previous position
(`savePosition`) and a merge marker `mergedFrom`, which the game only ever
tests for being set; it is modelled as a `Bool` (`true` iff non-null). -/
structure Tile where
  x : Int
  y : Int
  value : Int
  previousPosition : Option Pos
  mergedFrom : Bool
deriving DecidableEq, Repr

/-- The `Tile` constructor: `new Tile(position, value)` starts with no
previous position and a null `mergedFrom`. Modelled from the spec. -/
def mkTile (p : Pos) (v : Int) : Tile :=
  { x := p.1, y := p.2, value := v, previousPosition := none, mergedFrom := false }

/-- Modelled from the spec: the `Grid` class (not under the given sources)
is a `size` × `size` board; `cells[x][y]` holds an optional tile. -/
structure Grid where
  size : Nat
  cells : List (List (Option Tile))
deriving DecidableEq, Repr

/-- Modelled from the spec: `Grid.prototype.withinBounds`. -/
def withinBounds (g : Grid) (p : Pos) : Bool :=
  decide (0 ≤ p.1) && decide (p.1 < (g.size : Int)) &&
  decide (0 ≤ p.2) && decide (p.2 < (g.size : Int))

/-- Modelled from the spec: `Grid.prototype.cellContent`; out-of-bounds
queries answer null rather than raising. -/
def cellContent (g : Grid) (p : Pos) : Option Tile :=
  if withinBounds g p then ((g.cells.getD p.1.toNat []).getD p.2.toNat none)
  else none

/-- Modelled from the spec: `Grid.prototype.cellAvailable` (no tile there). -/
def cellAvailable (g : Grid) (p : Pos) : Bool :=
  (cellContent g p).isNone

/-- Write one cell of the grid (in-bounds writes only; the game never writes
out of bounds). Used to model `Grid.prototype.insertTile`/`removeTile` and
direct `cells[x][y]` assignments. -/
def setCell (g : Grid) (p : Pos) (t : Option Tile) : Grid :=
  if withinBounds g p then
    { g with cells := (g.cells.set p.1.toNat ((g.cells.getD p.1.toNat []).set p.2.toNat t)) }
  else g

/-- Modelled from the spec: `Grid.prototype.insertTile` stores the tile at
its own coordinates. -/
def insertTile (g : Grid) (t : Tile) : Grid := setCell g (t.x, t.y) (some t)

/-- Modelled from the spec: `Grid.prototype.removeTile` clears the cell at
the tile's coordinates. -/
def removeTile (g : Grid) (t : Tile) : Grid := setCell g (t.x, t.y) none

/-- Modelled from the spec: `Grid.prototype.availableCells`, collected in
`eachCell` order (`x` outer loop, `y` inner loop). -/
def availableCellsList (g : Grid) : List Pos :=
  (List.range g.size).flatMap fun (x : Nat) =>
    (List.range g.size).filterMap fun (y : Nat) =>
      if cellAvailable g ((x : Int), (y : Int)) then some ((x : Int), (y : Int))
      else none

/-- Modelled from the spec: `Grid.prototype.cellsAvailable`. -/
def cellsAvailable (g : Grid) : Bool := !(availableCellsList g).isEmpty

/-- The occupancy-and-value projection of a grid: what `Grid.serialize`
records per cell (tile value or null), together with the size. Two grids
with the same projection are indistinguishable to availability and value
queries. -/
def valueGrid (g : Grid) : Nat × List (List (Option Int)) :=
  (g.size, g.cells.map (List.map (Option.map Tile.value)))

/-- Bool-valued well-formedness: `cells` is a `size` × `size` table. -/
def wellFormed (g : Grid) : Bool :=
  (g.cells.length = g.size : Bool) &&
    g.cells.all fun col => (col.length = g.size : Bool)

/-- Bool-valued coherence: every stored tile's own coordinates equal the
cell that holds it (the spec's "every Tile referenced by exactly one cell"). -/
def coherent (g : Grid) : Bool :=
  (List.range g.size).all fun (x : Nat) =>
    (List.range g.size).all fun (y : Nat) =>
      match cellContent g ((x : Int), (y : Int)) with
      | none => true
      | some t => decide (t.x = (x : Int)) && decide (t.y = (y : Int))

/-- Bool-valued check that no tile on the grid carries a set `mergedFrom`
marker (the state right after `prepareTiles`). -/
def allClear (g : Grid) : Bool :=
  (List.range g.size).all fun (x : Nat) =>
    (List.range g.size).all fun (y : Nat) =>
      match cellContent g ((x : Int), (y : Int)) with
      | none => true
      | some t => !t.mergedFrom

/-- Bool-valued check that every tile value on the grid is positive. -/
def posValues (g : Grid) : Bool :=
  (List.range g.size).all fun (x : Nat) =>
    (List.range g.size).all fun (y : Nat) =>
      match cellContent g ((x : Int), (y : Int)) with
      | none => true
      | some t => decide (0 < t.value)

/-- `GameManager.prototype.getVector`: direction 0 is up, 1 right, 2 down,
3 left. -/
def getVector (d : Fin 4) : Pos :=
  match d with
  | 0 => (0, -1)
  | 1 => (1, 0)
  | 2 => (0, 1)
  | 3 => (-1, 0)

/-- One axis of `GameManager.prototype.buildTraversals`: positions 0..n-1,
reversed when the vector component is +1. -/
def axisList (n : Nat) (comp : Int) : List Int :=
  if comp = 1 then ((List.range n).map (Int.ofNat)).reverse
  else (List.range n).map (Int.ofNat)

/-- The flattened cell visit order of `GameManager.prototype.move` and
`tryMove`: the nested `traversals.x.forEach / traversals.y.forEach` loops,
`x` outer. -/
def traversalList (n : Nat) (v : Pos) : List Pos :=
  (axisList n v.1).flatMap fun x => (axisList n v.2).map fun y => (x, y)

/-- The loop body of `GameManager.prototype.findFarthestPosition`: walk from
`prev` one step at a time along `v` while the next cell is in bounds and
free. The fuel argument only bounds the loop; each step moves one axis by 1
inside `[0, size)`, so `size + 1` fuel is never exhausted when the walk
starts in bounds. -/
def findFarthestAux (g : Grid) (v : Pos) : Nat → Pos → Pos × Pos
  | 0, prev => (prev, padd prev v)
  | fuel + 1, prev =>
    let cell := padd prev v
    if withinBounds g cell && cellAvailable g cell then
      findFarthestAux g v fuel cell
    else (prev, cell)

/-- `GameManager.prototype.findFarthestPosition`. NOTE (source): the
`tryMove` call site passes a grid copy as a third argument, but the function
has no third parameter and always reads `this.grid`; callers must therefore
pass the grid the manager currently holds live. -/
def findFarthestPosition (g : Grid) (c : Pos) (v : Pos) : Pos × Pos :=
  findFarthestAux g v (g.size + 1) c

/-- `GameManager.prototype.prepareTiles`: clear every tile's merger marker
and save its position. Applied to the manager's live grid (the function
ignores the argument `tryMove` passes it). -/
def prepareGrid (g : Grid) : Grid :=
  { g with cells := g.cells.map (List.map (Option.map fun t =>
      { t with mergedFrom := false, previousPosition := some (t.x, t.y) })) }

/-- Instrumentation record for one merge performed during a move: where the
merged tile was created, its value, and whether either consumed tile already
carried a `mergedFrom` marker from this move. -/
structure MergeEvent where
  pos : Pos
  value : Int
  movingHadMerged : Bool
  nextHadMerged : Bool
deriving DecidableEq, Repr

/-- The accumulating state of the traversal loop in
`GameManager.prototype.move`: the evolving grid, the score delta added so
far, whether a 2048 tile was made, the `moved` flag, and the instrumented
merge events. -/
structure MoveState where
  grid : Grid
  score : Int
  won : Bool
  moved : Bool
  events : List MergeEvent
deriving DecidableEq, Repr

/-- `GameManager.prototype.moveTile`: clear the cell the tile's coordinates
name, store the tile at `cell`, and update its coordinates. -/
def moveTile (g : Grid) (t : Tile) (cell : Pos) : Grid :=
  let g1 := setCell g (t.x, t.y) none
  setCell g1 cell (some { t with x := cell.1, y := cell.2 })

/-- One iteration of the traversal loop in `GameManager.prototype.move`
at cell `c`: find the farthest reachable cell and the obstacle beyond it;
merge when the obstacle holds an equal, not-yet-merged tile, otherwise slide;
flag `moved` when the tile ends away from its starting cell. -/
def moveStep (v : Pos) (st : MoveState) (c : Pos) : MoveState :=
  match cellContent st.grid c with
  | none => st
  | some tile =>
    match cellContent st.grid (findFarthestPosition st.grid c v).2 with
    | some nt =>
      if nt.value = tile.value && !nt.mergedFrom then
        let next := (findFarthestPosition st.grid c v).2
        let merged : Tile :=
          { x := next.1, y := next.2, value := tile.value * 2,
            previousPosition := none, mergedFrom := true }
        let g1 := insertTile st.grid merged
        let g2 := removeTile g1 tile
        let ev : MergeEvent :=
          { pos := next, value := merged.value,
            movingHadMerged := tile.mergedFrom, nextHadMerged := nt.mergedFrom }
        { grid := g2,
          score := st.score + merged.value,
          won := st.won || (merged.value = 2048 : Bool),
          moved := st.moved || !(decide (c = next)),
          events := st.events ++ [ev] }
      else
        { st with grid := moveTile st.grid tile (findFarthestPosition st.grid c v).1,
                  moved := st.moved ||
                    !(decide (c = (findFarthestPosition st.grid c v).1)) }
    | none =>
      { st with grid := moveTile st.grid tile (findFarthestPosition st.grid c v).1,
                moved := st.moved ||
                  !(decide (c = (findFarthestPosition st.grid c v).1)) }

/-- The pure slide-and-merge phase of `GameManager.prototype.move` (before
the random-tile spawn): prepare the tiles, then run the traversal. `score`
is the score delta, `won` whether this move created a 2048 tile. -/
def moveCore (g : Grid) (d : Fin 4) : MoveState :=
  let v := getVector d
  (traversalList g.size v).foldl (moveStep v)
    { grid := prepareGrid g, score := 0, won := false, moved := false, events := [] }

/-- `GameManager.prototype.tileMatchesAvailable`: scan every cell and its
four direction-vector neighbours for an equal value. -/
def tileMatchesAvailable (g : Grid) : Bool :=
  (List.range g.size).any fun (x : Nat) =>
    (List.range g.size).any fun (y : Nat) =>
      match cellContent g ((x : Int), (y : Int)) with
      | none => false
      | some tile =>
        (List.finRange 4).any fun d =>
          match cellContent g
              ((x : Int) + (getVector d).1, (y : Int) + (getVector d).2) with
          | none => false
          | some other => decide (other.value = tile.value)

/-- `GameManager.prototype.movesAvailable`. -/
def movesAvailable (g : Grid) : Bool :=
  cellsAvailable g || tileMatchesAvailable g

/-- The per-cell test of `GameManager.prototype.tryMove`: the farthest
position and obstacle are computed against `live` (the manager's grid —
`findFarthestPosition` ignores the grid argument passed at this call site),
while the tile contents are read from the probed copy `g`. -/
def tryStep (live g : Grid) (v : Pos) (c : Pos) : Bool :=
  match cellContent g c with
  | none => false
  | some tile =>
    match cellContent g (findFarthestPosition live c v).2 with
    | some nt =>
      if nt.value = tile.value && !nt.mergedFrom then true
      else !(decide ((findFarthestPosition live c v).1 = c))
    | none => !(decide ((findFarthestPosition live c v).1 = c))

/-- `GameManager.prototype.tryMove(direction, grid)`: reports whether some
tile would merge or slide, without mutating the probed grid. The traversal
uses the manager's `size`; the walk consults the manager's live grid (see
`tryStep`). The call also runs `prepareTiles` on the live grid — that side
effect is modelled separately by `prepareGrid` where a claim needs it. -/
def tryMoveB (live : Grid) (d : Fin 4) (g : Grid) : Bool :=
  let v := getVector d
  (traversalList live.size v).foldl (fun moved c => moved || tryStep live g v c) false

/-- Build a concrete coherent grid from a column-major table of optional
values (`vals[x][y]`), as used by the concrete boards in the theorems
below. -/
def gridOfValues (vals : List (List (Option Int))) : Grid :=
  { size := vals.length
  , cells := vals.enum.map fun xc => xc.2.enum.map fun yv => yv.2.map fun v =>
      { x := (xc.1 : Int), y := (yv.1 : Int), value := v,
        previousPosition := none, mergedFrom := false } }

/-- The full game state held by `GameManager` (grid, score and flags). -/
structure GameState where
  grid : Grid
  score : Int
  over : Bool
  won : Bool
  keepPlaying : Bool
deriving DecidableEq, Repr

/-- `GameManager.prototype.isGameTerminated`. -/
def isGameTerminated (s : GameState) : Bool :=
  s.over || (s.won && !s.keepPlaying)

/-- Resolution of the two `Math.random` draws in
`GameManager.prototype.addRandomTile`: which available cell is picked
(index modulo the number of available cells) and whether the spawned value
is 4 (probability 0.1) rather than 2. -/
structure SpawnOracle where
  idx : Nat
  four : Bool
deriving DecidableEq, Repr

/-- `GameManager.prototype.addRandomTile`: insert a random 2 (or 4) on a
random available cell, if any cell is available. Returns the new grid and
whether a tile was spawned. -/
def addRandomTile (g : Grid) (or : SpawnOracle) : Grid × Bool :=
  if (availableCellsList g).isEmpty then (g, false)
  else
    (insertTile g (mkTile ((availableCellsList g).getD
      (or.idx % (availableCellsList g).length) (0, 0))
      (if or.four then 4 else 2)), true)

/-- Observable side effects of one `move` call: whether a tile was spawned
and whether the actuator was invoked. -/
structure MoveEffects where
  spawned : Bool
  actuated : Bool
deriving DecidableEq, Repr

/-- `GameManager.prototype.move`: return unchanged when the game is
terminated; otherwise run the slide/merge traversal, and only when a tile
moved spawn a random tile, update the game-over flag and actuate. -/
def moveGM (s : GameState) (d : Fin 4) (or : SpawnOracle) :
    GameState × MoveEffects :=
  if isGameTerminated s then (s, { spawned := false, actuated := false })
  else
    if (moveCore s.grid d).moved then
      ({ grid := (addRandomTile (moveCore s.grid d).grid or).1, score := s.score + (moveCore s.grid d).score, over := (if !movesAvailable (addRandomTile (moveCore s.grid d).grid or).1 then true else s.over), won := (s.won || (moveCore s.grid d).won), keepPlaying := s.keepPlaying },
       { spawned := (addRandomTile (moveCore s.grid d).grid or).2, actuated := true })
    else
      ({ s with grid := (moveCore s.grid d).grid },
       { spawned := false, actuated := false })

/-! ## Strategies (`strategies.js`)

The strategies never receive the live grid directly: each direction probe
builds a fresh copy (`new Grid` + `serialize` + rebuilt `Tile`s).  Because
`tryMove` never mutates its grid argument, the copy a probe scores is the
*unmoved* copy.  `Math.log2` is applied only to tile values, which are
powers of two in every reachable state; it is modelled by a fuelled binary
logarithm (exact on powers of two). -/

/-- Binary logarithm by structural recursion on a fuel bound (any
`fuel ≥ n` gives `⌊log₂ n⌋`). -/
def log2Fuel : Nat → Nat → Nat
  | 0, _ => 0
  | fuel + 1, n => if n ≥ 2 then log2Fuel fuel (n / 2) + 1 else 0

/-- `Math.log2` restricted to the tile-value domain: exact on powers of two
(the only values the game produces), and conventionally 0 on non-positive
inputs (where JS would give NaN or -Infinity, never produced by the game). -/
def jsLog2 (v : Int) : ℚ := if v ≤ 0 then 0 else (log2Fuel v.toNat v.toNat : ℚ)

/-- The detached copy every strategy probe builds: `new Grid(size)` whose
cells are rebuilt from `grid.serialize()` — fresh tiles carrying only the
value (their stored coordinates are taken from the cell slot; the serialized
position fields are never read by any probe or evaluation). -/
def buildCopyT (g : Grid) : Grid :=
  { size := g.size
  , cells := (List.range g.size).map fun (x : Nat) =>
      (List.range g.size).map fun (y : Nat) =>
        match cellContent g ((x : Int), (y : Int)) with
        | some t => some { x := (x : Int), y := (y : Int), value := t.value,
                           previousPosition := none, mergedFrom := false }
        | none => none }

/-- `NaiveStrategy.evaluatePosition` (also `GameManager.evaluatePosition`):
the sum of all tile values. -/
def naiveEval (g : Grid) : Int :=
  (List.range g.size).foldl (fun acc (x : Nat) =>
    (List.range g.size).foldl (fun acc (y : Nat) =>
      match cellContent g ((x : Int), (y : Int)) with
      | some t => acc + t.value
      | none => acc) acc) 0

/-- The four corner cells tested by the strategies. -/
def cornersList : List Pos := [(0, 0), (0, 3), (3, 0), (3, 3)]

/-- The fixed boustrophedon traversal of `AdvancedStrategy.evaluatePosition`
(`snakePattern`, rows flattened in order). -/
def snakePattern : List Pos :=
  [(0, 0), (1, 0), (2, 0), (3, 0),
   (3, 1), (2, 1), (1, 1), (0, 1),
   (0, 2), (1, 2), (2, 2), (3, 2),
   (3, 3), (2, 3), (1, 3), (0, 3)]

/-- `AdvancedStrategy.evaluatePosition`. -/
def evalAdvanced (g : Grid) : ℚ :=
  -- eachCell pass: max tile value and number of empty cells
  let mt := (List.range g.size).foldl (fun acc (x : Nat) =>
    (List.range g.size).foldl (fun acc (y : Nat) =>
      match cellContent g ((x : Int), (y : Int)) with
      | some t => (max acc.1 t.value, acc.2)
      | none => (acc.1, acc.2 + 1)) acc) ((0 : Int), (0 : Nat))
  let maxTile := mt.1
  let emptyCells := mt.2
  -- snake pattern: reward values not exceeding the previous visited value
  let sp := snakePattern.foldl (fun (acc : ℚ × Option Int) pos =>
    match cellContent g pos with
    | none => acc
    | some t =>
      let ok := match acc.2 with
        | none => true
        | some lv => decide (t.value ≤ lv)
      (if ok then acc.1 + jsLog2 t.value * (3 / 2) else acc.1, some t.value))
    ((0 : ℚ), (none : Option Int))
  let snakeScore := sp.1
  -- monotonicity and smoothness over right/bottom neighbours
  let ms := (List.range 4).foldl (fun acc (x : Nat) =>
    (List.range 4).foldl (fun (acc : ℚ × ℚ) (y : Nat) =>
      match cellContent g ((x : Int), (y : Int)) with
      | none => acc
      | some t =>
        let cv := jsLog2 t.value
        [(1, 0), (0, 1)].foldl (fun (acc : ℚ × ℚ) (dxy : Nat × Nat) =>
          if x + dxy.1 < 4 && y + dxy.2 < 4 then
            match cellContent g (((x + dxy.1 : Nat) : Int), ((y + dxy.2 : Nat) : Int)) with
            | none => acc
            | some nt =>
              let nv := jsLog2 nt.value
              (acc.1 - |cv - nv|, if nv < cv then acc.2 + (cv - nv) else acc.2)
          else acc) acc) acc) ((0 : ℚ), (0 : ℚ))
  let smoothness := ms.1
  let monotonicity := ms.2
  let maxTileInCorner := cornersList.any fun c =>
    match cellContent g c with
    | some t => decide (t.value = maxTile)
    | none => false
  let score : ℚ :=
    (emptyCells : ℚ) * 12000 + smoothness * 60 + monotonicity * 80 +
    (if maxTileInCorner then (25000 : ℚ) else 0) + snakeScore * 100
  if !maxTileInCorner then score - jsLog2 maxTile * 1000 else score

/-- `MasterStrategy.isValidChain`: one value is exactly double the other. -/
def isValidChain (v1 v2 : Int) : Bool :=
  decide (v1 = v2 * 2) || decide (v2 = v1 * 2)

/-- `MasterStrategy.EARLY_GAME_WEIGHTS`. -/
def earlyGameWeights : List (List ℚ) :=
  [[2048, 1024, 512, 256],
   [128, 256, 384, 512],
   [64, 128, 256, 384],
   [32, 64, 128, 256]]

/-- `MasterStrategy.LATE_GAME_WEIGHTS`. -/
def lateGameWeights : List (List ℚ) :=
  [[65536, 32768, 16384, 8192],
   [32768, 16384, 8192, 4096],
   [16384, 8192, 4096, 2048],
   [8192, 4096, 2048, 1024]]

/-- Accumulator of the main evaluation loop of
`MasterStrategy.evaluatePosition`. -/
structure MasterAcc where
  score : ℚ
  emptyCells : Nat
  chainScore : ℚ
  edgeScore : Int
  maxTile : Int
  maxTilePos : Option (Nat × Nat)

/-- `MasterStrategy.evaluatePosition` (the `gradientScore` term in the
source is declared and weighted but never updated, hence identically 0). -/
def evalMaster (g : Grid) (isLateGame : Bool) : ℚ :=
  let weights := if isLateGame then lateGameWeights else earlyGameWeights
  let acc := (List.range 4).foldl (fun acc (x : Nat) =>
    (List.range 4).foldl (fun (acc : MasterAcc) (y : Nat) =>
      match cellContent g ((x : Int), (y : Int)) with
      | none => { acc with emptyCells := acc.emptyCells + 1 }
      | some t =>
        let acc := if t.value > acc.maxTile then
            { acc with maxTile := t.value, maxTilePos := some (x, y) }
          else acc
        let acc := { acc with
          score := acc.score + (t.value : ℚ) * ((weights.getD x []).getD y 0) }
        let acc := if x < 3 then
            match cellContent g (((x + 1 : Nat) : Int), (y : Int)) with
            | some rt => if isValidChain t.value rt.value then
                { acc with chainScore := acc.chainScore + jsLog2 t.value } else acc
            | none => acc
          else acc
        let acc := if y < 3 then
            match cellContent g ((x : Int), ((y + 1 : Nat) : Int)) with
            | some bt => if isValidChain t.value bt.value then
                { acc with chainScore := acc.chainScore + jsLog2 t.value } else acc
            | none => acc
          else acc
        if x = 0 || x = 3 || y = 0 || y = 3 then
          { acc with edgeScore := acc.edgeScore + t.value }
        else acc) acc)
    { score := 0, emptyCells := 0, chainScore := 0, edgeScore := 0,
      maxTile := 0, maxTilePos := none : MasterAcc }
  let cornerScore : Int :=
    match acc.maxTilePos with
    | some p =>
      if p = (0, 0) || p = (0, 3) || p = (3, 0) || p = (3, 3) then acc.maxTile * 2
      else 0
    | none => 0
  let total : ℚ := acc.score + (acc.emptyCells : ℚ) * 10000 +
    acc.chainScore * 15000 + (cornerScore : ℚ) * 30000 +
    (acc.edgeScore : ℚ) * 2000 + 0 * 5000
  if isLateGame && (cornerScore = 0 : Bool) then total - (acc.maxTile : ℚ) * 30000
  else total

/-- `MasterStrategy.getMaxTile`. -/
def getMaxTile (g : Grid) : Int :=
  (List.range g.size).foldl (fun acc (x : Nat) =>
    (List.range g.size).foldl (fun acc (y : Nat) =>
      match cellContent g ((x : Int), (y : Int)) with
      | some t => if t.value > acc then t.value else acc
      | none => acc) acc) 0

/-- The loop body of the chance layer of `AdvancedStrategy.expectimax`:
accumulate `0.9 ×` the move-layer value with a 2 spawned at the cell plus
`0.1 ×` the move-layer value with a 4 spawned there (`rec` is the
depth-decremented recursion), and count the cell. -/
def expChanceStep (rec : Grid → ℚ) (g : Grid) (sc : ℚ × Nat) (c : Pos) : ℚ × Nat :=
  (sc.1 + (9 / 10 : ℚ) * rec (insertTile (buildCopyT g) (mkTile c 2))
        + (1 / 10 : ℚ) * rec (insertTile (buildCopyT g) (mkTile c 4)),
   sc.2 + 1)

/-- `AdvancedStrategy.expectimax`.  The legality probes inside the search
call `GameManager.tryMove`, whose farthest-position walk reads the
manager's live grid (`live`); the probed copies are never mutated, so the
recursion descends into *unmoved* copies. -/
def expectimax (live : Grid) : Nat → Grid → Bool → ℚ
  | 0, g, _ => evalAdvanced g
  | Nat.succ d, g, true =>
    let step := fun (best : Option ℚ) (dir : Fin 4) =>
      let copy := buildCopyT g
      if tryMoveB live dir copy then
        let s := expectimax live d copy false
        some (match best with | none => s | some b => max b s)
      else best
    match (List.finRange 4).foldl step none with
    | none => evalAdvanced g
    | some b => b
  | Nat.succ d, g, false =>
    if (availableCellsList g).isEmpty then evalAdvanced g
    else
      ((availableCellsList g).foldl
        (expChanceStep (fun gw => expectimax live d gw true) g)
        ((0 : ℚ), (0 : Nat))).1 /
      (((availableCellsList g).foldl
        (expChanceStep (fun gw => expectimax live d gw true) g)
        ((0 : ℚ), (0 : Nat))).2 : ℚ)

/-- The selection loop shared by every strategy's `getNextMove`: iterate the
four directions; on each whose probe reports a move, compare its score
against the best so far (`none` models the `-Infinity` start; `NaiveStrategy`
starts at `-1` instead) and keep the strictly better direction.  Returns the
default direction 0 when no probe succeeds. -/
def pickBest (init : Option ℚ) (probe : Fin 4 → Bool) (scoreOf : Fin 4 → ℚ) : Fin 4 :=
  ((List.finRange 4).foldl (fun (st : Option ℚ × Fin 4) dir =>
      if probe dir then
        let s := scoreOf dir
        match st.1 with
        | none => (some s, dir)
        | some b => if b < s then (some s, dir) else st
      else st) (init, 0)).2

/-- `NaiveStrategy.getNextMove`, together with its side effect on the live
grid: each of the four `tryMove` probes runs `prepareTiles` on the live grid
(the grid argument passed at that call site is ignored), so the live tiles'
`mergedFrom` markers are cleared and their positions saved; `prepareGrid` is
idempotent, so the four applications equal one. -/
def naiveGetNextMove (live : Grid) : Fin 4 × Grid :=
  (pickBest (some (-1)) (fun dir => tryMoveB live dir (buildCopyT live))
    (fun _ => ((naiveEval (buildCopyT live) : Int) : ℚ)),
   prepareGrid live)

/-- `AdvancedStrategy.getNextMove` with the search depth as a parameter
(the source fixes `SEARCH_DEPTH = 5`).  `tryMove` does not mutate the probed
copy, so the expectimax score is computed on the unmoved copy. -/
def advancedGetNextMove (live : Grid) (depth : Nat) : Fin 4 :=
  pickBest none (fun dir => tryMoveB live dir (buildCopyT live))
    (fun _ => expectimax live depth (buildCopyT live) false)

/-- `beta <= alpha` on the extended values used by the alpha-beta cutoffs:
`beta = none` models `+Infinity`, `alpha = none` models `-Infinity`; the
comparison can only hold between two finite values. -/
def obLE (beta alpha : Option ℚ) : Bool :=
  match beta, alpha with
  | some b, some a => decide (b ≤ a)
  | _, _ => false

/-- `MasterStrategy.sampleCells` composed with its call site: a shuffled
copy of the cells (the shuffle is the `sampler` oracle, one resolution of
`Math.random`) cut to `Math.min(3, cells.length)` entries. -/
def sampledCells (sampler : List Pos → List Pos) (cells : List Pos) : List Pos :=
  (sampler cells).take (min 3 cells.length)

/-- The `value` computed for one sampled cell in the chance layer of
`MasterStrategy.alphaBeta`: `Math.min` over the running value, `0.9 ×` the
move-layer value with a spawned 2, and `0.1 ×` the move-layer value with a
spawned 4 (`rec` is the depth-decremented recursion, taking the current
`beta`). -/
def chanceVal2 (rec : Grid → Option ℚ → ℚ) (g : Grid) (st1 : Option ℚ)
    (bet : Option ℚ) (c : Pos) : ℚ :=
  min (match st1 with
       | none => (9 / 10 : ℚ) * rec (insertTile (buildCopyT g) (mkTile c 2)) bet
       | some v => min v ((9 / 10 : ℚ) * rec (insertTile (buildCopyT g) (mkTile c 2)) bet))
      ((1 / 10 : ℚ) * rec (insertTile (buildCopyT g) (mkTile c 4)) bet)

/-- The loop body of the chance layer of `MasterStrategy.alphaBeta`
(state: running `value`, running `beta`, `break` flag): update the value
with `chanceVal2`, shrink `beta`, and break once `beta <= alpha`. -/
def abChanceStep (g : Grid) (alpha : Option ℚ) (rec : Grid → Option ℚ → ℚ)
    (st : Option ℚ × Option ℚ × Bool) (c : Pos) : Option ℚ × Option ℚ × Bool :=
  if st.2.2 then st
  else
    (some (chanceVal2 rec g st.1 st.2.1 c),
     some (match st.2.1 with
           | none => chanceVal2 rec g st.1 st.2.1 c
           | some b => min b (chanceVal2 rec g st.1 st.2.1 c)),
     obLE (some (match st.2.1 with
           | none => chanceVal2 rec g st.1 st.2.1 c
           | some b => min b (chanceVal2 rec g st.1 st.2.1 c))) alpha)

/-- `MasterStrategy.alphaBeta`.  `alpha`/`beta` are `Option ℚ` with `none`
for `-Infinity`/`+Infinity` respectively; the move layer's running `value`
starts at `-Infinity` (`none`) and the chance layer's at `+Infinity`.  The
`break` statements are modelled by a `broken` flag threaded through the
fold.  In the chance layer the `none` result branch is unreachable: the
sample size `min 3 cells.length` is at least 1 whenever empty cells exist. -/
def alphaBeta (live : Grid) (sampler : List Pos → List Pos) :
    Nat → Grid → Option ℚ → Option ℚ → Bool → Bool → ℚ
  | 0, g, _, _, _, late => evalMaster g late
  | Nat.succ d, g, alpha, beta, true, late =>
    let step := fun (st : Option ℚ × Option ℚ × Bool) (dir : Fin 4) =>
      if st.2.2 then st
      else
        let copy := buildCopyT g
        if tryMoveB live dir copy then
          let r := alphaBeta live sampler d copy st.2.1 beta false late
          let value : ℚ := match st.1 with | none => r | some v => max v r
          let alpha' : Option ℚ :=
            some (match st.2.1 with | none => value | some a => max a value)
          (some value, alpha', obLE beta alpha')
        else st
    match ((List.finRange 4).foldl step (none, alpha, false)).1 with
    | none => evalMaster g late
    | some v => v
  | Nat.succ d, g, alpha, beta, false, late =>
    if (availableCellsList g).isEmpty then evalMaster g late
    else
      match ((sampledCells sampler (availableCellsList g)).foldl
        (abChanceStep g alpha
          (fun gw bet => alphaBeta live sampler d gw alpha bet true late))
        (none, beta, false)).1 with
      | none => 0
      | some v => v

/-- `MasterStrategy.getNextMove` with the search depth as a parameter (the
source fixes `SEARCH_DEPTH = 4`).  The stage flag is computed once from the
live grid's maximum tile; alpha/beta start at `-Infinity`/`+Infinity` and
are not updated across the top-level directions.  Each top-level direction's
search receives its own sampler (independent `Math.random` draws). -/
def masterGetNextMove (live : Grid) (depth : Nat)
    (samplers : Fin 4 → List Pos → List Pos) : Fin 4 :=
  let isLateGame := decide (getMaxTile live ≥ 1024)
  pickBest none (fun dir => tryMoveB live dir (buildCopyT live))
    (fun dir => alphaBeta live (samplers dir) depth (buildCopyT live)
      none none false isLateGame)

/-! ## Concrete boards and states used in the scenario theorems -/

/-- A detached copy holding a single `2` at `(1, 0)`: resolving a left move
on this copy slides it to `(0, 0)`. -/
def c1Copy : Grid := gridOfValues
  [[none, none, none, none], [some 2, none, none, none],
   [none, none, none, none], [none, none, none, none]]

/-- A live grid with every cell occupied (all `2`s). -/
def c1LiveFull : Grid := gridOfValues
  (List.replicate 4 (List.replicate 4 (some 2)))

/-- A live grid with every cell empty. -/
def c1LiveEmpty : Grid := gridOfValues
  (List.replicate 4 (List.replicate 4 none))

/-- A live grid whose single tile still carries the bookkeeping of an
earlier turn: its `mergedFrom` marker is set and its saved position is
`(1, 0)`. -/
def c2Live : Grid :=
  { size := 4, cells := [[some { x := 0, y := 0, value := 2, previousPosition := some (1, 0), mergedFrom := true }, none, none, none], [none, none, none, none], [none, none, none, none], [none, none, none, none]] }

/-- A board with a single `8` in the `(0, 0)` corner: directions 1 and 2
are legal, 0 and 3 are not. -/
def c3Board : Grid := gridOfValues
  [[some 8, none, none, none], [none, none, none, none],
   [none, none, none, none], [none, none, none, none]]

/-- One resolution of the per-direction `Math.random` shuffles of
`MasterStrategy.sampleCells`: direction 1 sees the empty cells in reverse
order, every other direction in list order. -/
def c3Samplers : Fin 4 → List Pos → List Pos :=
  fun d => if d = 1 then List.reverse else id

/-- The row `{(0,0):2, (1,0):2, (2,0):2}` of the merge-once scenario. -/
def c5Row : Grid := gridOfValues
  [[some 2, none, none, none], [some 2, none, none, none],
   [some 2, none, none, none], [none, none, none, none]]

/-- The expected board after resolving `c5Row` leftward:
`{(0,0):4, (1,0):2}`. -/
def c5After : Grid := gridOfValues
  [[some 4, none, none, none], [some 2, none, none, none],
   [none, none, none, none], [none, none, none, none]]

/-- A full board with no two adjacent equal values: no direction is legal
and no move is available. -/
def fullBoard : Grid := gridOfValues
  [[some 2, some 4, some 2, some 4], [some 4, some 2, some 4, some 2],
   [some 2, some 4, some 2, some 4], [some 4, some 2, some 4, some 2]]

/-- A running, non-terminated state over the scenario row. -/
def c4State : GameState := { grid := c5Row, score := 0, over := false, won := false, keepPlaying := false }

/-- A terminated state (`over = true`). -/
def c10State : GameState := { grid := c1Copy, score := 5, over := true, won := false, keepPlaying := false }

/-- A fixed resolution of the spawn randomness: first available cell, value
`2`. -/
def oracle0 : SpawnOracle := { idx := 0, four := false }

/-! ## Basic lemmas about cells and grids -/

theorem getD_set_self {α : Type} (l : List α) (i : Nat) (a d : α)
    (h : i < l.length) : (l.set i a).getD i d = a := by
  induction l generalizing i with
  | nil => simp at h
  | cons x xs ih =>
    cases i with
    | zero => simp [List.set]
    | succ j => simpa [List.set] using ih j (by simpa using h)

theorem getD_set_ne {α : Type} (l : List α) (i j : Nat) (a : α) (d : α)
    (h : i ≠ j) : (l.set i a).getD j d = l.getD j d := by
  induction l generalizing i j with
  | nil => simp
  | cons x xs ih =>
    cases i with
    | zero => cases j with
      | zero => exact absurd rfl h
      | succ j2 => simp [List.set]
    | succ i2 => cases j with
      | zero => simp [List.set]
      | succ j2 => simpa [List.set] using ih i2 j2 (by omega)

theorem size_setCell (g : Grid) (p : Pos) (t : Option Tile) :
    (setCell g p t).size = g.size := by
  unfold setCell; split <;> rfl

theorem cellContent_none_of_not_within (g : Grid) (p : Pos)
    (h : ¬ withinBounds g p = true) : cellContent g p = none := by
  simp [cellContent, h]

theorem within_of_cellContent_some {g : Grid} {p : Pos} {t : Tile}
    (h : cellContent g p = some t) : withinBounds g p = true := by
  by_contra hb
  rw [cellContent_none_of_not_within g p hb] at h
  exact Option.noConfusion h

theorem within_iff {g : Grid} {p : Pos} :
    withinBounds g p = true ↔
      0 ≤ p.1 ∧ p.1 < (g.size : Int) ∧ 0 ≤ p.2 ∧ p.2 < (g.size : Int) := by
  simp [withinBounds, and_assoc]

theorem wellFormed_iff {g : Grid} :
    wellFormed g = true ↔
      g.cells.length = g.size ∧ ∀ col ∈ g.cells, col.length = g.size := by
  simp [wellFormed]

theorem setCell_not_within {g : Grid} {p : Pos} {t : Option Tile}
    (h : ¬ withinBounds g p = true) : setCell g p t = g := by
  simp [setCell, h]

theorem getD_mem {α : Type} (l : List α) (i : Nat) (d : α)
    (h : i < l.length) : l.getD i d ∈ l := by
  induction l generalizing i with
  | nil => simp at h
  | cons x xs ih =>
    cases i with
    | zero => simp
    | succ j =>
      have := ih j (by simpa using h)
      simp only [List.getD_cons_succ]
      exact List.mem_cons_of_mem x this

theorem setCell_cells {g : Grid} {p : Pos} (t : Option Tile)
    (hp : withinBounds g p = true) :
    (setCell g p t).cells =
      g.cells.set p.1.toNat ((g.cells.getD p.1.toNat []).set p.2.toNat t) := by
  simp [setCell, hp]

theorem wellFormed_setCell {g : Grid} (p : Pos) (t : Option Tile)
    (hwf : wellFormed g = true) : wellFormed (setCell g p t) = true := by
  rcases wellFormed_iff.1 hwf with ⟨hlen, hcols⟩
  by_cases hp : withinBounds g p = true
  case neg => rw [setCell_not_within hp]; exact hwf
  case pos =>
    rcases within_iff.1 hp with ⟨h1, h2, h3, h4⟩
    have hx : p.1.toNat < g.cells.length := by omega
    refine wellFormed_iff.2 ⟨?_, ?_⟩
    · rw [setCell_cells t hp, List.length_set, hlen, size_setCell]
    · intro col hcol
      rw [size_setCell]
      rw [setCell_cells t hp] at hcol
      rcases List.mem_or_eq_of_mem_set hcol with h | h
      · exact hcols col h
      · subst h
        rw [List.length_set]
        exact hcols _ (getD_mem _ _ _ hx)

theorem cellContent_setCell_self {g : Grid} {p : Pos} (t : Option Tile)
    (hwf : wellFormed g = true) (hp : withinBounds g p = true) :
    cellContent (setCell g p t) p = t := by
  rcases wellFormed_iff.1 hwf with ⟨hlen, hcols⟩
  rcases within_iff.1 hp with ⟨h1, h2, h3, h4⟩
  have hx : p.1.toNat < g.cells.length := by omega
  have hwithin : withinBounds (setCell g p t) p = true := by
    rw [within_iff, size_setCell]; exact ⟨h1, h2, h3, h4⟩
  have hcol : (g.cells.getD p.1.toNat []).length = g.size :=
    hcols _ (getD_mem _ _ _ hx)
  rw [show cellContent (setCell g p t) p =
      (((setCell g p t).cells.getD p.1.toNat []).getD p.2.toNat none) by
    simp [cellContent, hwithin]]
  rw [setCell_cells t hp]
  rw [getD_set_self _ _ _ _ (by omega)]
  rw [getD_set_self _ _ _ _ (by rw [hcol]; omega)]

theorem cellContent_setCell_ne {g : Grid} {p q : Pos} (t : Option Tile)
    (hwf : wellFormed g = true) (hne : q ≠ p) :
    cellContent (setCell g p t) q = cellContent g q := by
  by_cases hp : withinBounds g p = true
  case neg => rw [setCell_not_within hp]
  case pos =>
    by_cases hq : withinBounds g q = true
    case neg =>
      have hq2 : ¬ withinBounds (setCell g p t) q = true := by
        intro hc; apply hq
        rw [within_iff] at hc ⊢
        rwa [size_setCell] at hc
      rw [cellContent_none_of_not_within _ _ hq2,
          cellContent_none_of_not_within _ _ hq]
    case pos =>
      have hq2 : withinBounds (setCell g p t) q = true := by
        rw [within_iff, size_setCell]; exact within_iff.1 hq
      rcases within_iff.1 hp with ⟨a1, a2, a3, a4⟩
      rcases within_iff.1 hq with ⟨b1, b2, b3, b4⟩
      rcases wellFormed_iff.1 hwf with ⟨hlen, hcols⟩
      rw [show cellContent (setCell g p t) q =
          (((setCell g p t).cells.getD q.1.toNat []).getD q.2.toNat none) by
        simp [cellContent, hq2]]
      rw [show cellContent g q = ((g.cells.getD q.1.toNat []).getD q.2.toNat none) by
        simp [cellContent, hq]]
      rw [setCell_cells t hp]
      by_cases hx : q.1.toNat = p.1.toNat
      · have hy : q.2.toNat ≠ p.2.toNat := by
          intro hy; apply hne
          exact Prod.ext (by omega) (by omega)
        rw [hx, getD_set_self _ _ _ _ (by omega)]
        rw [getD_set_ne _ _ _ _ _ (by omega)]
      · rw [getD_set_ne _ _ _ _ _ (by omega)]

theorem pos_of_toNat {p : Pos} (h1 : 0 ≤ p.1) (h2 : 0 ≤ p.2) :
    ((p.1.toNat : Int), (p.2.toNat : Int)) = p :=
  Prod.ext (Int.toNat_of_nonneg h1) (Int.toNat_of_nonneg h2)

theorem coherent_iff {g : Grid} :
    coherent g = true ↔
      ∀ p t, cellContent g p = some t → t.x = p.1 ∧ t.y = p.2 := by
  constructor
  · intro h p t hc
    have hw := within_of_cellContent_some hc
    rcases within_iff.1 hw with ⟨h1, h2, h3, h4⟩
    simp only [coherent, List.all_eq_true, List.mem_range] at h
    have := h p.1.toNat (by omega) p.2.toNat (by omega)
    rw [pos_of_toNat h1 h3, hc] at this
    simp only [decide_eq_true_eq, Bool.and_eq_true] at this
    exact ⟨by omega, by omega⟩
  · intro h
    simp only [coherent, List.all_eq_true, List.mem_range]
    intro x hx y hy
    cases hc : cellContent g ((x : Int), (y : Int)) with
    | none => rfl
    | some t =>
      have := h _ _ hc
      simp [this.1, this.2]

theorem allClear_iff {g : Grid} :
    allClear g = true ↔
      ∀ p t, cellContent g p = some t → t.mergedFrom = false := by
  constructor
  · intro h p t hc
    have hw := within_of_cellContent_some hc
    rcases within_iff.1 hw with ⟨h1, h2, h3, h4⟩
    simp only [allClear, List.all_eq_true, List.mem_range] at h
    have := h p.1.toNat (by omega) p.2.toNat (by omega)
    rw [pos_of_toNat h1 h3, hc] at this
    simpa using this
  · intro h
    simp only [allClear, List.all_eq_true, List.mem_range]
    intro x hx y hy
    cases hc : cellContent g ((x : Int), (y : Int)) with
    | none => rfl
    | some t => simpa using h _ _ hc

theorem posValues_iff {g : Grid} :
    posValues g = true ↔
      ∀ p t, cellContent g p = some t → 0 < t.value := by
  constructor
  · intro h p t hc
    have hw := within_of_cellContent_some hc
    rcases within_iff.1 hw with ⟨h1, h2, h3, h4⟩
    simp only [posValues, List.all_eq_true, List.mem_range] at h
    have := h p.1.toNat (by omega) p.2.toNat (by omega)
    rw [pos_of_toNat h1 h3, hc] at this
    simpa using this
  · intro h
    simp only [posValues, List.all_eq_true, List.mem_range]
    intro x hx y hy
    cases hc : cellContent g ((x : Int), (y : Int)) with
    | none => rfl
    | some t => simpa using h _ _ hc

/-- Two grids agree on size and on the value stored at every cell: the
relation induced by equality of `valueGrid` projections, used to transfer
facts between the live grid and the strategies' detached copies. -/
def sameCells (g1 g2 : Grid) : Prop :=
  g1.size = g2.size ∧
    ∀ p : Pos, Option.map Tile.value (cellContent g1 p) =
      Option.map Tile.value (cellContent g2 p)

theorem sameCells.refl (g : Grid) : sameCells g g := ⟨rfl, fun _ => rfl⟩

theorem sameCells.symm {g1 g2 : Grid} (h : sameCells g1 g2) : sameCells g2 g1 :=
  ⟨h.1.symm, fun p => (h.2 p).symm⟩

theorem sameCells.trans {g1 g2 g3 : Grid} (h : sameCells g1 g2)
    (h2 : sameCells g2 g3) : sameCells g1 g3 :=
  ⟨h.1.trans h2.1, fun p => (h.2 p).trans (h2.2 p)⟩

theorem getD_map {α β : Type} (f : α → β) (l : List α) (i : Nat) (d : α) :
    (l.map f).getD i (f d) = f (l.getD i d) := by
  induction l generalizing i with
  | nil => simp
  | cons x xs ih => cases i with
    | zero => simp
    | succ j => simp [ih j]

theorem valueGrid_eq_sameCells {g1 g2 : Grid}
    (h : valueGrid g1 = valueGrid g2) : sameCells g1 g2 := by
  have hsz : g1.size = g2.size := congrArg Prod.fst h
  have hcells : g1.cells.map (List.map (Option.map Tile.value)) =
      g2.cells.map (List.map (Option.map Tile.value)) := congrArg Prod.snd h
  refine ⟨hsz, fun p => ?_⟩
  by_cases hw : withinBounds g1 p = true
  case neg =>
    have hw2 : ¬ withinBounds g2 p = true := by
      rw [within_iff] at hw ⊢; rw [← hsz]; exact hw
    rw [cellContent_none_of_not_within _ _ hw,
        cellContent_none_of_not_within _ _ hw2]
  case pos =>
    have hw2 : withinBounds g2 p = true := by
      rw [within_iff] at hw ⊢; rw [← hsz]; exact hw
    have key : ∀ (cells : List (List (Option Tile))) (x y : Nat),
        Option.map Tile.value ((cells.getD x []).getD y none) =
        (((cells.map (List.map (Option.map Tile.value))).getD x []).getD y none) := by
      intro cells x y
      rw [show ([] : List (Option Int)) = List.map (Option.map Tile.value) [] from rfl,
        getD_map, show (none : Option Int) = Option.map Tile.value none from rfl,
        getD_map]
    rw [show cellContent g1 p = ((g1.cells.getD p.1.toNat []).getD p.2.toNat none) by
      simp [cellContent, hw]]
    rw [show cellContent g2 p = ((g2.cells.getD p.1.toNat []).getD p.2.toNat none) by
      simp [cellContent, hw2]]
    rw [key, key, hcells]

theorem sameCells_within {g1 g2 : Grid} (h : sameCells g1 g2) (p : Pos) :
    withinBounds g1 p = withinBounds g2 p := by
  simp only [withinBounds, h.1]

theorem sameCells_avail {g1 g2 : Grid} (h : sameCells g1 g2) (p : Pos) :
    cellAvailable g1 p = cellAvailable g2 p := by
  have := h.2 p
  simp only [cellAvailable]
  cases h1 : cellContent g1 p <;> cases h2 : cellContent g2 p <;>
    rw [h1, h2] at this <;> simp_all

/-! ### `prepareGrid` and `buildCopyT` lemmas -/

theorem map_getD_none (F : Option Tile → Option Tile) (hF : F none = none)
    (l : List (Option Tile)) (y : Nat) :
    (l.map F).getD y none = F (l.getD y none) := by
  induction l generalizing y with
  | nil => simp [hF]
  | cons c cs ih => cases y with
    | zero => simp
    | succ j => simpa using ih j

theorem cells_map_getD (F : Option Tile → Option Tile) (hF : F none = none)
    (cells : List (List (Option Tile))) (x y : Nat) :
    (((cells.map (List.map F)).getD x []).getD y none) =
      F ((cells.getD x []).getD y none) := by
  induction cells generalizing x with
  | nil => simp [hF]
  | cons c cs ih => cases x with
    | zero => simpa using map_getD_none F hF c y
    | succ j => simpa using ih j

theorem prepare_cellContent (g : Grid) (p : Pos) :
    cellContent (prepareGrid g) p =
      Option.map (fun t =>
        { t with mergedFrom := false, previousPosition := some (t.x, t.y) })
        (cellContent g p) := by
  have hsz : (prepareGrid g).size = g.size := rfl
  by_cases hw : withinBounds g p = true
  case neg =>
    have hw2 : ¬ withinBounds (prepareGrid g) p = true := by
      rw [within_iff, hsz]; rw [within_iff] at hw; exact hw
    rw [cellContent_none_of_not_within _ _ hw2,
        cellContent_none_of_not_within _ _ hw]
    rfl
  case pos =>
    have hw2 : withinBounds (prepareGrid g) p = true := by
      rw [within_iff, hsz]; rw [within_iff] at hw; exact hw
    rw [show cellContent (prepareGrid g) p =
        (((prepareGrid g).cells.getD p.1.toNat []).getD p.2.toNat none) by
      simp [cellContent, hw2]]
    rw [show cellContent g p = ((g.cells.getD p.1.toNat []).getD p.2.toNat none) by
      simp [cellContent, hw]]
    exact cells_map_getD _ rfl g.cells p.1.toNat p.2.toNat

theorem sameCells_prepare (g : Grid) : sameCells (prepareGrid g) g := by
  refine ⟨rfl, fun p => ?_⟩
  rw [prepare_cellContent]
  cases cellContent g p <;> rfl

theorem wellFormed_prepare {g : Grid} (hwf : wellFormed g = true) :
    wellFormed (prepareGrid g) = true := by
  rcases wellFormed_iff.1 hwf with ⟨hlen, hcols⟩
  refine wellFormed_iff.2 ⟨?_, ?_⟩
  · show (g.cells.map _).length = g.size
    rw [List.length_map]; exact hlen
  · intro col hcol
    show col.length = g.size
    rcases List.mem_map.1 hcol with ⟨col0, hmem, rfl⟩
    rw [List.length_map]; exact hcols _ hmem

theorem coherent_prepare {g : Grid} (hcoh : coherent g = true) :
    coherent (prepareGrid g) = true := by
  refine coherent_iff.2 fun p t hc => ?_
  rw [prepare_cellContent] at hc
  cases h0 : cellContent g p with
  | none => rw [h0] at hc; exact Option.noConfusion hc
  | some t0 =>
    rw [h0] at hc
    have ht := Option.some.inj hc
    have := coherent_iff.1 hcoh p t0 h0
    rw [← ht]
    exact this

theorem allClear_prepare (g : Grid) : allClear (prepareGrid g) = true := by
  refine allClear_iff.2 fun p t hc => ?_
  rw [prepare_cellContent] at hc
  cases h0 : cellContent g p with
  | none => rw [h0] at hc; exact Option.noConfusion hc
  | some t0 =>
    rw [h0] at hc
    have ht := Option.some.inj hc
    rw [← ht]

theorem posValues_prepare {g : Grid} (hpv : posValues g = true) :
    posValues (prepareGrid g) = true := by
  refine posValues_iff.2 fun p t hc => ?_
  rw [prepare_cellContent] at hc
  cases h0 : cellContent g p with
  | none => rw [h0] at hc; exact Option.noConfusion hc
  | some t0 =>
    rw [h0] at hc
    have ht := Option.some.inj hc
    rw [← ht]
    exact posValues_iff.1 hpv p t0 h0

theorem getD_range_map {β : Type} (f : Nat → β) (n x : Nat) (d : β)
    (hx : x < n) : ((List.range n).map f).getD x d = f x := by
  rw [List.getD_eq_getElem?_getD]
  rw [List.getElem?_map]
  rw [List.getElem?_range hx]
  rfl

theorem copy_cellContent (g : Grid) (p : Pos) :
    cellContent (buildCopyT g) p =
      Option.map (fun t =>
        { x := p.1, y := p.2, value := t.value,
          previousPosition := none, mergedFrom := false })
        (cellContent g p) := by
  have hsz : (buildCopyT g).size = g.size := rfl
  by_cases hw : withinBounds g p = true
  case neg =>
    have hw2 : ¬ withinBounds (buildCopyT g) p = true := by
      rw [within_iff, hsz]; rw [within_iff] at hw; exact hw
    rw [cellContent_none_of_not_within _ _ hw2,
        cellContent_none_of_not_within _ _ hw]
    rfl
  case pos =>
    have hw2 : withinBounds (buildCopyT g) p = true := by
      rw [within_iff, hsz]; rw [within_iff] at hw; exact hw
    rcases within_iff.1 hw with ⟨h1, h2, h3, h4⟩
    rw [show cellContent (buildCopyT g) p =
        (((buildCopyT g).cells.getD p.1.toNat []).getD p.2.toNat none) by
      simp [cellContent, hw2]]
    rw [show (buildCopyT g).cells = ((List.range g.size).map fun (x : Nat) =>
      (List.range g.size).map fun (y : Nat) =>
        match cellContent g ((x : Int), (y : Int)) with
        | some t => some { x := (x : Int), y := (y : Int), value := t.value,
                           previousPosition := none, mergedFrom := false }
        | none => none) from rfl]
    rw [getD_range_map _ _ _ _ (by omega)]
    rw [getD_range_map _ _ _ _ (by omega)]
    rw [pos_of_toNat h1 h3]
    have e1 : (p.1.toNat : Int) = p.1 := Int.toNat_of_nonneg h1
    have e2 : (p.2.toNat : Int) = p.2 := Int.toNat_of_nonneg h3
    cases h0 : cellContent g p with
    | none => rfl
    | some t => rw [e1, e2]; rfl

theorem sameCells_copy (g : Grid) : sameCells (buildCopyT g) g := by
  refine ⟨rfl, fun p => ?_⟩
  rw [copy_cellContent]
  cases cellContent g p <;> rfl

theorem allClear_copy (g : Grid) : allClear (buildCopyT g) = true := by
  refine allClear_iff.2 fun p t hc => ?_
  rw [copy_cellContent] at hc
  cases h0 : cellContent g p with
  | none => rw [h0] at hc; exact Option.noConfusion hc
  | some t0 =>
    rw [h0] at hc
    have ht := Option.some.inj hc
    rw [← ht]

/-! ### `findFarthestPosition` lemmas -/

theorem padd_psmul_zero (p v : Pos) : padd p (psmul 0 v) = p := by
  simp [padd, psmul]

theorem padd_psmul_succ (p v : Pos) (j : Nat) :
    padd (padd p v) (psmul j v) = padd p (psmul (j + 1) v) := by
  simp only [padd, psmul, Prod.mk.injEq]
  push_cast
  constructor <;> ring

theorem ffAux_shape (g : Grid) (v : Pos) :
    ∀ (fuel : Nat) (prev : Pos),
      ∃ j : Nat, (findFarthestAux g v fuel prev).1 = padd prev (psmul j v) ∧
        (findFarthestAux g v fuel prev).2 = padd (findFarthestAux g v fuel prev).1 v := by
  intro fuel
  induction fuel with
  | zero => intro prev; exact ⟨0, by simp [findFarthestAux, padd_psmul_zero], rfl⟩
  | succ n ih =>
    intro prev
    simp only [findFarthestAux]
    split
    · rcases ih (padd prev v) with ⟨j, h1, h2⟩
      exact ⟨j + 1, by rw [h1, padd_psmul_succ], h2⟩
    · exact ⟨0, by simp [padd_psmul_zero], rfl⟩

theorem ffAux_avail (g : Grid) (v : Pos) :
    ∀ (fuel : Nat) (prev : Pos),
      (findFarthestAux g v fuel prev).1 ≠ prev →
        withinBounds g (findFarthestAux g v fuel prev).1 = true ∧
        cellAvailable g (findFarthestAux g v fuel prev).1 = true := by
  intro fuel
  induction fuel with
  | zero => intro prev h; exact absurd rfl h
  | succ n ih =>
    intro prev h
    revert h
    simp only [findFarthestAux]
    split
    case isTrue hcnd =>
      intro h
      by_cases he : (findFarthestAux g v n (padd prev v)).1 = padd prev v
      · rw [he]
        exact ⟨(Bool.and_eq_true .. ▸ hcnd).1, (Bool.and_eq_true .. ▸ hcnd).2⟩
      · exact ih (padd prev v) he
    case isFalse hcnd => intro h; exact absurd rfl h

theorem ffAux_sameCells {g1 g2 : Grid} (h : sameCells g1 g2) (v : Pos) :
    ∀ (fuel : Nat) (prev : Pos),
      findFarthestAux g1 v fuel prev = findFarthestAux g2 v fuel prev := by
  intro fuel
  induction fuel with
  | zero => intro prev; rfl
  | succ n ih =>
    intro prev
    simp only [findFarthestAux]
    rw [sameCells_within h, sameCells_avail h]
    split
    · exact ih (padd prev v)
    · rfl

theorem ff_sameCells {g1 g2 : Grid} (h : sameCells g1 g2) (c : Pos) (v : Pos) :
    findFarthestPosition g1 c v = findFarthestPosition g2 c v := by
  unfold findFarthestPosition
  rw [h.1]
  exact ffAux_sameCells h v (g2.size + 1) c

theorem ff_shape (g : Grid) (c : Pos) (v : Pos) :
    ∃ j : Nat, (findFarthestPosition g c v).1 = padd c (psmul j v) ∧
      (findFarthestPosition g c v).2 = padd (findFarthestPosition g c v).1 v :=
  ffAux_shape g v (g.size + 1) c

theorem ff_farthest_avail (g : Grid) (c : Pos) (v : Pos)
    (h : (findFarthestPosition g c v).1 ≠ c) :
    withinBounds g (findFarthestPosition g c v).1 = true ∧
    cellAvailable g (findFarthestPosition g c v).1 = true :=
  ffAux_avail g v (g.size + 1) c h

theorem padd_psmul_ne (d : Fin 4) (c : Pos) (k : Nat) (hk : k ≠ 0) :
    padd c (psmul k (getVector d)) ≠ c := by
  fin_cases d <;>
  · intro h
    have h1 := congrArg Prod.fst h
    have h2 := congrArg Prod.snd h
    simp only [getVector, padd, psmul] at h1 h2
    omega

theorem padd_psmul_step (p v : Pos) (j : Nat) :
    padd (padd p (psmul j v)) v = padd p (psmul (j + 1) v) := by
  simp only [padd, psmul, Prod.mk.injEq]
  push_cast
  constructor <;> ring

/-- The step a `fin_cases`-free form: `next` of the farthest-position pair
differs from the start cell for every direction vector. -/
theorem ff_next_ne (g : Grid) (c : Pos) (d : Fin 4) :
    (findFarthestPosition g c (getVector d)).2 ≠ c := by
  rcases ff_shape g c (getVector d) with ⟨j, h1, h2⟩
  rw [h2, h1, padd_psmul_step]
  exact padd_psmul_ne d c (j + 1) (by omega)

/-! ### The static per-cell move condition and the probe/move equivalence -/

/-- The value-level condition under which the traversal loop at cell `c`
does something: the cell holds a tile, and either the first obstacle along
the direction holds an equal value or the tile can slide at least one
step.  Depends only on the occupancy/value projection of the grid. -/
def staticCond (g : Grid) (v : Pos) (c : Pos) : Bool :=
  match cellContent g c with
  | none => false
  | some tile =>
    match cellContent g (findFarthestPosition g c v).2 with
    | some nt => decide (nt.value = tile.value) ||
        !(decide ((findFarthestPosition g c v).1 = c))
    | none => !(decide ((findFarthestPosition g c v).1 = c))

theorem staticCond_sameCells {g1 g2 : Grid} (h : sameCells g1 g2) (v c : Pos) :
    staticCond g1 v c = staticCond g2 v c := by
  have hff : findFarthestPosition g1 c v = findFarthestPosition g2 c v :=
    ff_sameCells h c v
  have h1 := h.2 c
  unfold staticCond
  rw [hff]
  cases hc1 : cellContent g1 c with
  | none =>
    rw [hc1] at h1
    cases hc2 : cellContent g2 c with
    | none => rfl
    | some t2 => rw [hc2] at h1; exact absurd h1 (by simp)
  | some t1 =>
    rw [hc1] at h1
    cases hc2 : cellContent g2 c with
    | none => rw [hc2] at h1; exact absurd h1 (by simp)
    | some t2 =>
      rw [hc2] at h1
      have hv : t1.value = t2.value := by simpa using h1
      have h2 := h.2 (findFarthestPosition g2 c v).2
      cases hn1 : cellContent g1 (findFarthestPosition g2 c v).2 with
      | none =>
        rw [hn1] at h2
        cases hn2 : cellContent g2 (findFarthestPosition g2 c v).2 with
        | none => rfl
        | some n2 => rw [hn2] at h2; exact absurd h2 (by simp)
      | some n1 =>
        rw [hn1] at h2
        cases hn2 : cellContent g2 (findFarthestPosition g2 c v).2 with
        | none => rw [hn2] at h2; exact absurd h2 (by simp)
        | some n2 =>
          rw [hn2] at h2
          have hnv : n1.value = n2.value := by simpa using h2
          simp only [hv, hnv]

theorem tryStep_eq_staticCond {live g : Grid} (hsame : sameCells live g)
    (hclear : allClear g = true) (v c : Pos) :
    tryStep live g v c = staticCond g v c := by
  unfold tryStep staticCond
  rw [ff_sameCells hsame c v]
  cases hc : cellContent g c with
  | none => rfl
  | some tile =>
    cases hn : cellContent g (findFarthestPosition g c v).2 with
    | none => rfl
    | some nt =>
      have hm := allClear_iff.1 hclear _ _ hn
      by_cases he : nt.value = tile.value <;> simp [he, hm]

theorem foldl_or_eq_any (f : Pos → Bool) :
    ∀ (l : List Pos) (b : Bool),
      l.foldl (fun m c => m || f c) b = (b || l.any f) := by
  intro l
  induction l with
  | nil => simp
  | cons c rest ih =>
    intro b
    rw [List.foldl_cons, ih, List.any_cons, Bool.or_assoc]

theorem tryMoveB_eq_any (live : Grid) (d : Fin 4) (g : Grid) :
    tryMoveB live d g =
      (traversalList live.size (getVector d)).any (tryStep live g (getVector d)) := by
  unfold tryMoveB
  rw [foldl_or_eq_any]
  simp

theorem Grid.ext (g1 g2 : Grid) (h1 : g1.size = g2.size)
    (h2 : g1.cells = g2.cells) : g1 = g2 := by
  cases g1; cases g2
  cases h1; cases h2
  rfl

theorem set_getD_self {α : Type} (l : List α) (n : Nat) (d : α)
    (h : n < l.length) : l.set n (l.getD n d) = l := by
  induction l generalizing n with
  | nil => simp at h
  | cons x xs ih => cases n with
    | zero => simp
    | succ j => simpa [List.set] using ih j (by simpa using h)

theorem setCell_setCell {g : Grid} (p : Pos) (a b : Option Tile)
    (hwf : wellFormed g = true) :
    setCell (setCell g p a) p b = setCell g p b := by
  by_cases hp : withinBounds g p = true
  case neg => rw [setCell_not_within hp, setCell_not_within hp]
  case pos =>
    have hp2 : withinBounds (setCell g p a) p = true := by
      rw [within_iff, size_setCell]; exact within_iff.1 hp
    rcases wellFormed_iff.1 hwf with ⟨hlen, hcols⟩
    rcases within_iff.1 hp with ⟨h1, h2, h3, h4⟩
    have hx : p.1.toNat < g.cells.length := by omega
    have e1 := setCell_cells (g := g) a hp
    have e2 := setCell_cells (g := setCell g p a) b hp2
    have e3 := setCell_cells (g := g) b hp
    have hsz : (setCell g p a).size = g.size := size_setCell ..
    apply Grid.ext
    · simp [size_setCell]
    · rw [e2, e3, e1]
      rw [List.set_set]
      congr 1
      rw [getD_set_self _ _ _ _ hx]
      rw [List.set_set]

theorem setCell_content_self {g : Grid} {p : Pos} {t : Option Tile}
    (hwf : wellFormed g = true) (hc : cellContent g p = t) :
    setCell g p t = g := by
  by_cases hp : withinBounds g p = true
  case neg => exact setCell_not_within hp
  case pos =>
    rcases wellFormed_iff.1 hwf with ⟨hlen, hcols⟩
    rcases within_iff.1 hp with ⟨h1, h2, h3, h4⟩
    have hx : p.1.toNat < g.cells.length := by omega
    have hcol : (g.cells.getD p.1.toNat []).length = g.size :=
      hcols _ (getD_mem _ _ _ hx)
    have hct : (g.cells.getD p.1.toNat []).getD p.2.toNat none = t := by
      rw [← hc]; simp [cellContent, hp]
    apply Grid.ext
    · rw [size_setCell]
    · rw [setCell_cells t hp, ← hct]
      rw [set_getD_self _ _ _ (by rw [hcol]; omega)]
      rw [set_getD_self _ _ _ hx]

theorem moveTile_self {g : Grid} {tile : Tile} {c : Pos}
    (hwf : wellFormed g = true) (hcoh : coherent g = true)
    (hc : cellContent g c = some tile) : moveTile g tile c = g := by
  have hxy := coherent_iff.1 hcoh c tile hc
  have hpos : ((tile.x, tile.y) : Pos) = c := Prod.ext hxy.1 hxy.2
  have htile : ({ tile with x := c.1, y := c.2 } : Tile) = tile := by
    rw [← hxy.1, ← hxy.2]
  unfold moveTile
  rw [hpos, htile, setCell_setCell _ _ _ hwf, setCell_content_self hwf hc]

/-- A cell visit whose static condition fails leaves the whole move state
untouched. -/
theorem moveStep_noop {v : Pos} {st : MoveState} {c : Pos}
    (hwf : wellFormed st.grid = true) (hcoh : coherent st.grid = true)
    (_hclear : allClear st.grid = true)
    (hcond : staticCond st.grid v c = false) : moveStep v st c = st := by
  unfold staticCond at hcond
  cases hc : cellContent st.grid c with
  | none => simp only [moveStep, hc]
  | some tile =>
    rw [hc] at hcond
    cases hn : cellContent st.grid (findFarthestPosition st.grid c v).2 with
    | none =>
      rw [hn] at hcond
      have hfp : (findFarthestPosition st.grid c v).1 = c := by simpa using hcond
      simp only [moveStep, hc, hn]
      rw [hfp, moveTile_self hwf hcoh hc]
      simp
    | some nt =>
      rw [hn] at hcond
      have hne : decide (nt.value = tile.value) = false :=
        (Bool.or_eq_false_iff.1 hcond).1
      have hfp : (findFarthestPosition st.grid c v).1 = c := by
        have := (Bool.or_eq_false_iff.1 hcond).2
        simpa using this
      simp only [moveStep, hc, hn]
      rw [if_neg (by simp [of_decide_eq_false hne])]
      rw [hfp, moveTile_self hwf hcoh hc]
      simp

/-- A cell visit whose static condition holds raises the `moved` flag. -/
theorem moveStep_act {v : Pos} (d : Fin 4) (hv : v = getVector d)
    {st : MoveState} {c : Pos} (hclear : allClear st.grid = true)
    (hcond : staticCond st.grid v c = true) : (moveStep v st c).moved = true := by
  unfold staticCond at hcond
  cases hc : cellContent st.grid c with
  | none => rw [hc] at hcond; exact absurd hcond (by simp)
  | some tile =>
    rw [hc] at hcond
    cases hn : cellContent st.grid (findFarthestPosition st.grid c v).2 with
    | none =>
      rw [hn] at hcond
      have hfp : ¬ ((findFarthestPosition st.grid c v).1 = c) := by
        simpa using hcond
      have hcf : ¬ (c = (findFarthestPosition st.grid c v).1) :=
        fun h => hfp h.symm
      simp only [moveStep, hc, hn]
      simp [hcf]
    | some nt =>
      rw [hn] at hcond
      have hm := allClear_iff.1 hclear _ _ hn
      simp only [moveStep, hc, hn]
      by_cases he : nt.value = tile.value
      · rw [if_pos (by simp [he, hm])]
        have hnc : (findFarthestPosition st.grid c v).2 ≠ c := by
          rw [hv]; exact ff_next_ne st.grid c d
        have hcn : ¬ (c = (findFarthestPosition st.grid c v).2) :=
          fun h => hnc h.symm
        simp [hcn]
      · rw [if_neg (by simp [he])]
        have hfp : ¬ ((findFarthestPosition st.grid c v).1 = c) := by
          rcases Bool.or_eq_true_iff.1 hcond with h | h
          · exact absurd (of_decide_eq_true h) he
          · simpa using h
        have hcf : ¬ (c = (findFarthestPosition st.grid c v).1) :=
          fun h => hfp h.symm
        simp [hcf]

theorem moveStep_moved_mono {v : Pos} {st : MoveState} {c : Pos}
    (h : st.moved = true) : (moveStep v st c).moved = true := by
  cases hc : cellContent st.grid c with
  | none => simp only [moveStep, hc]; exact h
  | some tile =>
    cases hn : cellContent st.grid (findFarthestPosition st.grid c v).2 with
    | none => simp only [moveStep, hc, hn]; simp [h]
    | some nt =>
      simp only [moveStep, hc, hn]
      split <;> simp [h]

theorem foldl_moveStep_mono (v : Pos) :
    ∀ (l : List Pos) (st : MoveState), st.moved = true →
      (l.foldl (moveStep v) st).moved = true := by
  intro l
  induction l with
  | nil => intro st h; exact h
  | cons c rest ih =>
    intro st h
    rw [List.foldl_cons]
    exact ih _ (moveStep_moved_mono h)

/-- On a clean (prepared) grid, the traversal fold raises `moved` exactly
when some visited cell satisfies the static condition of the *initial*
grid: until the first successful visit the grid is literally unchanged. -/
theorem foldl_moveStep_moved_iff {v : Pos} (d : Fin 4) (hv : v = getVector d) :
    ∀ (l : List Pos) (st : MoveState), wellFormed st.grid = true →
      coherent st.grid = true → allClear st.grid = true → st.moved = false →
      ((l.foldl (moveStep v) st).moved = true ↔
        l.any (staticCond st.grid v) = true) := by
  intro l
  induction l with
  | nil =>
    intro st _ _ _ hm
    simp [hm]
  | cons c rest ih =>
    intro st hwf hcoh hcl hm
    rw [List.foldl_cons, List.any_cons]
    by_cases hcnd : staticCond st.grid v c = true
    · have h1 : (moveStep v st c).moved = true := moveStep_act d hv hcl hcnd
      have h2 := foldl_moveStep_mono v rest _ h1
      simp [hcnd, h2]
    · have hcnd0 : staticCond st.grid v c = false := by
        simpa using hcnd
      rw [moveStep_noop hwf hcoh hcl hcnd0]
      rw [ih st hwf hcoh hcl hm]
      simp [hcnd0]

/-- The `moved` flag of the slide/merge phase holds iff some cell of the
traversal satisfies the static per-cell condition of the original grid. -/
theorem moveCore_moved_iff_any (g : Grid) (d : Fin 4)
    (hwf : wellFormed g = true) (hcoh : coherent g = true) :
    ((moveCore g d).moved = true ↔
      (traversalList g.size (getVector d)).any (staticCond g (getVector d)) = true) := by
  unfold moveCore
  have hsame := sameCells_prepare g
  have hiff := foldl_moveStep_moved_iff d rfl
    (traversalList g.size (getVector d))
    { grid := prepareGrid g, score := 0, won := false, moved := false, events := [] }
    (wellFormed_prepare hwf) (coherent_prepare hcoh) (allClear_prepare g) rfl
  rw [hiff]
  have : staticCond (prepareGrid g) (getVector d) = staticCond g (getVector d) := by
    funext c
    exact staticCond_sameCells hsame (getVector d) c
  rw [this]

/-- The legality probe agrees with the real move's `moved` flag when the
probed copy is the standard rebuilt copy of the live grid (the only way the
strategies call it): the live-grid walk and the copy contents then coincide. -/
theorem tryMove_probe_eq_moved (live : Grid) (d : Fin 4)
    (hwf : wellFormed live = true) (hcoh : coherent live = true) :
    tryMoveB live d (buildCopyT live) = (moveCore live d).moved := by
  have hsame : sameCells live (buildCopyT live) := (sameCells_copy live).symm
  have h1 : tryMoveB live d (buildCopyT live) =
      (traversalList live.size (getVector d)).any
        (tryStep live (buildCopyT live) (getVector d)) := tryMoveB_eq_any ..
  have h2 : tryStep live (buildCopyT live) (getVector d) =
      staticCond live (getVector d) := by
    funext c
    rw [tryStep_eq_staticCond hsame (allClear_copy live) (getVector d) c]
    exact staticCond_sameCells (sameCells_copy live) (getVector d) c
  have h3 := moveCore_moved_iff_any live d hwf hcoh
  rw [h1, h2]
  cases ha : (traversalList live.size (getVector d)).any (staticCond live (getVector d)) with
  | true => exact (h3.2 ha).symm
  | false =>
    cases hb : (moveCore live d).moved with
    | true => exact absurd (h3.1 hb) (by simp [ha])
    | false => rfl

/-! ### Occupancy count and direction projection: the measures showing that
a move with a raised `moved` flag really changes the occupancy/value
projection of the grid, and leaves an empty cell for the spawn. -/

/-- Number of occupied cells, as an integer (sum of indicator values over
the board). -/
def tileCountZ (g : Grid) : Int :=
  ∑ q in Finset.range g.size ×ˢ Finset.range g.size,
    (if (cellContent g ((q.1 : Int), (q.2 : Int))).isSome then 1 else 0)

/-- Projection of a position onto a direction vector. -/
def phiP (v : Pos) (p : Pos) : Int := p.1 * v.1 + p.2 * v.2

/-- Sum of direction projections of all occupied cells: strictly increases
when a tile slides toward the direction and nothing else changes. -/
def projSum (g : Grid) (v : Pos) : Int :=
  ∑ q in Finset.range g.size ×ˢ Finset.range g.size,
    (if (cellContent g ((q.1 : Int), (q.2 : Int))).isSome then
      phiP v ((q.1 : Int), (q.2 : Int)) else 0)

theorem sum_prod_update {n : Nat} (f h : Nat × Nat → Int) (q0 : Nat × Nat)
    (hx : q0.1 < n) (hy : q0.2 < n)
    (hag : ∀ q : Nat × Nat, q ≠ q0 → f q = h q) :
    ∑ q in Finset.range n ×ˢ Finset.range n, h q =
      (∑ q in Finset.range n ×ˢ Finset.range n, f q) - f q0 + h q0 := by
  have hmem : q0 ∈ Finset.range n ×ˢ Finset.range n := by
    rw [Finset.mem_product]
    exact ⟨Finset.mem_range.2 hx, Finset.mem_range.2 hy⟩
  have e1 : ∑ q in (Finset.range n ×ˢ Finset.range n).erase q0, h q + h q0 =
      ∑ q in Finset.range n ×ˢ Finset.range n, h q :=
    Finset.sum_erase_add _ _ hmem
  have e2 : ∑ q in (Finset.range n ×ˢ Finset.range n).erase q0, f q + f q0 =
      ∑ q in Finset.range n ×ˢ Finset.range n, f q :=
    Finset.sum_erase_add _ _ hmem
  have e3 : ∑ q in (Finset.range n ×ˢ Finset.range n).erase q0, h q =
      ∑ q in (Finset.range n ×ˢ Finset.range n).erase q0, f q := by
    refine Finset.sum_congr rfl fun q hq => ?_
    exact (hag q (Finset.ne_of_mem_erase hq)).symm
  omega

/-- The effect of one in-bounds cell write on the occupancy count. -/
theorem tileCountZ_setCell {g : Grid} {p : Pos} (t : Option Tile)
    (hwf : wellFormed g = true) (hp : withinBounds g p = true) :
    tileCountZ (setCell g p t) =
      tileCountZ g - (if (cellContent g p).isSome then 1 else 0) +
        (if t.isSome then 1 else 0) := by
  rcases within_iff.1 hp with ⟨h1, h2, h3, h4⟩
  have hsz : (setCell g p t).size = g.size := size_setCell ..
  unfold tileCountZ
  rw [hsz]
  rw [sum_prod_update
    (fun q => if (cellContent g ((q.1 : Int), (q.2 : Int))).isSome then 1 else 0)
    (fun q => if (cellContent (setCell g p t) ((q.1 : Int), (q.2 : Int))).isSome then 1 else 0)
    (p.1.toNat, p.2.toNat) (by omega) (by omega) ?agree]
  case agree =>
    intro q hq
    have hne : (((q.1 : Int), (q.2 : Int)) : Pos) ≠ p := by
      intro hqe
      apply hq
      have e1 := congrArg Prod.fst hqe
      have e2 := congrArg Prod.snd hqe
      simp only at e1 e2
      exact Prod.ext (by omega) (by omega)
    simp only [cellContent_setCell_ne t hwf hne]
  have ep : (((p.1.toNat : Int), (p.2.toNat : Int)) : Pos) = p := pos_of_toNat h1 h3
  simp only [ep, cellContent_setCell_self t hwf hp]

/-- The effect of one in-bounds cell write on the projection sum. -/
theorem projSum_setCell {g : Grid} {p : Pos} (t : Option Tile) (v : Pos)
    (hwf : wellFormed g = true) (hp : withinBounds g p = true) :
    projSum (setCell g p t) v =
      projSum g v - (if (cellContent g p).isSome then phiP v p else 0) +
        (if t.isSome then phiP v p else 0) := by
  rcases within_iff.1 hp with ⟨h1, h2, h3, h4⟩
  have hsz : (setCell g p t).size = g.size := size_setCell ..
  unfold projSum
  rw [hsz]
  rw [sum_prod_update
    (fun q => if (cellContent g ((q.1 : Int), (q.2 : Int))).isSome then
      phiP v ((q.1 : Int), (q.2 : Int)) else 0)
    (fun q => if (cellContent (setCell g p t) ((q.1 : Int), (q.2 : Int))).isSome then
      phiP v ((q.1 : Int), (q.2 : Int)) else 0)
    (p.1.toNat, p.2.toNat) (by omega) (by omega) ?agree]
  case agree =>
    intro q hq
    have hne : (((q.1 : Int), (q.2 : Int)) : Pos) ≠ p := by
      intro hqe
      apply hq
      have e1 := congrArg Prod.fst hqe
      have e2 := congrArg Prod.snd hqe
      simp only at e1 e2
      exact Prod.ext (by omega) (by omega)
    simp only [cellContent_setCell_ne t hwf hne]
  have ep : (((p.1.toNat : Int), (p.2.toNat : Int)) : Pos) = p := pos_of_toNat h1 h3
  simp only [ep, cellContent_setCell_self t hwf hp]

theorem tileCountZ_sameCells {g1 g2 : Grid} (h : sameCells g1 g2) :
    tileCountZ g1 = tileCountZ g2 := by
  unfold tileCountZ
  rw [h.1]
  refine Finset.sum_congr rfl fun q _ => ?_
  have := h.2 ((q.1 : Int), (q.2 : Int))
  cases h1 : cellContent g1 ((q.1 : Int), (q.2 : Int)) <;>
    cases h2 : cellContent g2 ((q.1 : Int), (q.2 : Int)) <;>
      rw [h1, h2] at this <;> simp_all

theorem projSum_sameCells {g1 g2 : Grid} (h : sameCells g1 g2) (v : Pos) :
    projSum g1 v = projSum g2 v := by
  unfold projSum
  rw [h.1]
  refine Finset.sum_congr rfl fun q _ => ?_
  have := h.2 ((q.1 : Int), (q.2 : Int))
  cases h1 : cellContent g1 ((q.1 : Int), (q.2 : Int)) <;>
    cases h2 : cellContent g2 ((q.1 : Int), (q.2 : Int)) <;>
      rw [h1, h2] at this <;> simp_all

theorem tileCountZ_le (g : Grid) : tileCountZ g ≤ (g.size : Int) * g.size := by
  unfold tileCountZ
  calc ∑ q in Finset.range g.size ×ˢ Finset.range g.size,
        (if (cellContent g ((q.1 : Int), (q.2 : Int))).isSome then (1 : Int) else 0)
      ≤ ∑ _q in Finset.range g.size ×ˢ Finset.range g.size, (1 : Int) := by
        refine Finset.sum_le_sum fun q _ => ?_
        split <;> omega
    _ = (g.size : Int) * g.size := by
        rw [Finset.sum_const, Finset.card_product, Finset.card_range]
        push_cast [nsmul_eq_mul]
        ring

theorem tileCountZ_lt_of_avail {g : Grid} {p : Pos}
    (hp : withinBounds g p = true) (hav : cellContent g p = none) :
    tileCountZ g < (g.size : Int) * g.size := by
  rcases within_iff.1 hp with ⟨h1, h2, h3, h4⟩
  unfold tileCountZ
  calc ∑ q in Finset.range g.size ×ˢ Finset.range g.size,
        (if (cellContent g ((q.1 : Int), (q.2 : Int))).isSome then (1 : Int) else 0)
      < ∑ _q in Finset.range g.size ×ˢ Finset.range g.size, (1 : Int) := by
        refine Finset.sum_lt_sum (fun q _ => by split <;> omega) ?_
        refine ⟨(p.1.toNat, p.2.toNat), ?_, ?_⟩
        · rw [Finset.mem_product]
          exact ⟨Finset.mem_range.2 (by omega), Finset.mem_range.2 (by omega)⟩
        · have ep : (((p.1.toNat : Int), (p.2.toNat : Int)) : Pos) = p :=
            pos_of_toNat h1 h3
          simp only [ep, hav]
          simp
    _ = (g.size : Int) * g.size := by
        rw [Finset.sum_const, Finset.card_product, Finset.card_range]
        push_cast [nsmul_eq_mul]
        ring

theorem avail_of_tileCountZ_lt {g : Grid}
    (h : tileCountZ g < (g.size : Int) * g.size) :
    cellsAvailable g = true := by
  by_contra hno
  have hall : ∀ (x y : Nat), x < g.size → y < g.size →
      (cellContent g ((x : Int), (y : Int))).isSome = true := by
    intro x y hx hy
    cases ho : cellContent g ((x : Int), (y : Int)) with
    | some t => rfl
    | none =>
      exfalso
      apply hno
      unfold cellsAvailable
      have hmem : (((x : Int), (y : Int)) : Pos) ∈ availableCellsList g := by
        unfold availableCellsList
        rw [List.mem_flatMap]
        refine ⟨x, List.mem_range.2 hx, ?_⟩
        rw [List.mem_filterMap]
        refine ⟨y, List.mem_range.2 hy, ?_⟩
        simp [cellAvailable, ho]
      cases hl : availableCellsList g with
      | nil => rw [hl] at hmem; simp at hmem
      | cons a as => simp [hl]
  have : tileCountZ g = (g.size : Int) * g.size := by
    unfold tileCountZ
    calc ∑ q in Finset.range g.size ×ˢ Finset.range g.size,
          (if (cellContent g ((q.1 : Int), (q.2 : Int))).isSome then (1 : Int) else 0)
        = ∑ _q in Finset.range g.size ×ˢ Finset.range g.size, (1 : Int) := by
          refine Finset.sum_congr rfl fun q hq => ?_
          rw [Finset.mem_product] at hq
          rw [hall q.1 q.2 (Finset.mem_range.1 hq.1) (Finset.mem_range.1 hq.2)]
          rfl
      _ = (g.size : Int) * g.size := by
          rw [Finset.sum_const, Finset.card_product, Finset.card_range]
          push_cast [nsmul_eq_mul]
          ring
  omega

theorem phiP_padd_psmul (d : Fin 4) (c : Pos) (j : Nat) :
    phiP (getVector d) (padd c (psmul j (getVector d))) =
      phiP (getVector d) c + j := by
  fin_cases d <;>
    (simp only [getVector, phiP, padd, psmul]; ring)

theorem within_congr_size {g1 g2 : Grid} (h : g1.size = g2.size) (p : Pos) :
    withinBounds g1 p = withinBounds g2 p := by
  simp [withinBounds, h]

theorem coherent_setCell {g : Grid} {p : Pos} {t : Option Tile}
    (hwf : wellFormed g = true) (hcoh : coherent g = true)
    (ht : ∀ tl, t = some tl → tl.x = p.1 ∧ tl.y = p.2) :
    coherent (setCell g p t) = true := by
  refine coherent_iff.2 fun q tl hq => ?_
  by_cases hqp : q = p
  · subst hqp
    by_cases hw : withinBounds g q = true
    · rw [cellContent_setCell_self t hwf hw] at hq
      exact ht tl hq
    · rw [setCell_not_within hw] at hq
      exact coherent_iff.1 hcoh q tl hq
  · rw [cellContent_setCell_ne t hwf hqp] at hq
    exact coherent_iff.1 hcoh q tl hq

/-- Invariant carried along the traversal fold: before the first successful
visit the state is exactly the initial prepared state; afterwards either
the occupancy count has strictly dropped (a merge happened), or it is
unchanged while the projection sum strictly grew on a board that has an
empty cell (a pure slide happened). -/
def MeasInv (g0 : Grid) (v : Pos) (st : MoveState) : Prop :=
  wellFormed st.grid = true ∧ coherent st.grid = true ∧ st.grid.size = g0.size ∧
    ((st = { grid := prepareGrid g0, score := 0, won := false, moved := false,
             events := [] }) ∨
     (st.moved = true ∧
       (tileCountZ st.grid < tileCountZ g0 ∨
        (tileCountZ st.grid = tileCountZ g0 ∧ projSum st.grid v > projSum g0 v ∧
         tileCountZ g0 < (g0.size : Int) * g0.size))))

theorem slide_meas (d : Fin 4) {v : Pos} (hv : v = getVector d) {g0 : Grid}
    {st : MoveState} {c : Pos} {tile : Tile}
    (hInv : MeasInv g0 v st) (hc : cellContent st.grid c = some tile) :
    MeasInv g0 v { st with grid := moveTile st.grid tile (findFarthestPosition st.grid c v).1, moved := (st.moved || !(decide (c = (findFarthestPosition st.grid c v).1))) } := by
  obtain ⟨hwf, hcoh, hsz, hbr⟩ := hInv
  have hxy := coherent_iff.1 hcoh c tile hc
  have hpos : ((tile.x, tile.y) : Pos) = c := Prod.ext hxy.1 hxy.2
  by_cases hfc : (findFarthestPosition st.grid c v).1 = c
  · have hstep : ({ st with grid := moveTile st.grid tile c, moved := (st.moved || !(decide (c = c))) } : MoveState) = st := by
      rw [moveTile_self hwf hcoh hc]
      simp
    rw [hfc, hstep]
    exact ⟨hwf, hcoh, hsz, hbr⟩
  · have hcw := within_of_cellContent_some hc
    have havw := ff_farthest_avail st.grid c v hfc
    have hfw : withinBounds st.grid (findFarthestPosition st.grid c v).1 = true :=
      havw.1
    have hfa : cellContent st.grid (findFarthestPosition st.grid c v).1 = none := by
      have := havw.2
      unfold cellAvailable at this
      cases hcc : cellContent st.grid (findFarthestPosition st.grid c v).1 with
      | none => rfl
      | some t => rw [hcc] at this; simp at this
    rcases ff_shape st.grid c v with ⟨j, hj1, hj2⟩
    have hj0 : j ≠ 0 := by
      intro h
      apply hfc
      rw [hj1, h, padd_psmul_zero]
    -- the written tile
    set tl : Tile := { tile with x := (findFarthestPosition st.grid c v).1.1, y := (findFarthestPosition st.grid c v).1.2 } with htl
    have hg1 : moveTile st.grid tile (findFarthestPosition st.grid c v).1 =
        setCell (setCell st.grid c none) (findFarthestPosition st.grid c v).1
          (some tl) := by
      unfold moveTile
      rw [hpos]
    have hwf1 : wellFormed (setCell st.grid c none) = true :=
      wellFormed_setCell _ _ hwf
    have hsz1 : (setCell st.grid c none).size = st.grid.size := size_setCell ..
    have hfw1 : withinBounds (setCell st.grid c none)
        (findFarthestPosition st.grid c v).1 = true := by
      rw [within_congr_size hsz1]
      exact hfw
    have hfa1 : cellContent (setCell st.grid c none)
        (findFarthestPosition st.grid c v).1 = none := by
      rw [cellContent_setCell_ne none hwf hfc]
      exact hfa
    -- counts
    have hcount1 : tileCountZ (setCell st.grid c none) = tileCountZ st.grid - 1 := by
      rw [tileCountZ_setCell none hwf hcw, hc]
      simp
    have hcount2 : tileCountZ (moveTile st.grid tile
        (findFarthestPosition st.grid c v).1) = tileCountZ st.grid := by
      rw [hg1, tileCountZ_setCell (some tl) hwf1 hfw1, hfa1, hcount1]
      simp
    -- projections
    have hproj1 : projSum (setCell st.grid c none) v =
        projSum st.grid v - phiP v c := by
      rw [projSum_setCell none v hwf hcw, hc]
      simp
    have hproj2 : projSum (moveTile st.grid tile
        (findFarthestPosition st.grid c v).1) v =
        projSum st.grid v + j := by
      rw [hg1, projSum_setCell (some tl) v hwf1 hfw1, hfa1, hproj1]
      have : phiP v (findFarthestPosition st.grid c v).1 = phiP v c + j := by
        rw [hj1, hv, phiP_padd_psmul]
      rw [this]
      simp
      ring
    -- structure
    have hwf2 : wellFormed (moveTile st.grid tile
        (findFarthestPosition st.grid c v).1) = true := by
      rw [hg1]
      exact wellFormed_setCell _ _ hwf1
    have hcoh2 : coherent (moveTile st.grid tile
        (findFarthestPosition st.grid c v).1) = true := by
      rw [hg1]
      refine coherent_setCell hwf1 ?_ ?_
      · exact coherent_setCell hwf hcoh (fun tl h => Option.noConfusion h)
      · intro tl2 h
        cases Option.some.inj h
        exact ⟨rfl, rfl⟩
    have hsz2 : (moveTile st.grid tile
        (findFarthestPosition st.grid c v).1).size = g0.size := by
      rw [hg1, size_setCell, size_setCell]
      exact hsz
    have hmoved : (st.moved ||
        !(decide (c = (findFarthestPosition st.grid c v).1))) = true := by
      have : ¬ (c = (findFarthestPosition st.grid c v).1) := fun h => hfc h.symm
      simp [this]
    refine ⟨hwf2, hcoh2, hsz2, Or.inr ⟨hmoved, ?_⟩⟩
    have hjpos : (0 : Int) < j := by
      have : 0 < j := Nat.pos_of_ne_zero hj0
      exact_mod_cast this
    rcases hbr with hinit | ⟨hm, hca | hcb⟩
    · -- first movement: board has an empty cell, count preserved, proj grows
      have hgp : st.grid = prepareGrid g0 := by rw [hinit]
      have hceq : tileCountZ st.grid = tileCountZ g0 := by
        rw [hgp]
        exact tileCountZ_sameCells (sameCells_prepare g0)
      have hpeq : projSum st.grid v = projSum g0 v := by
        rw [hgp]
        exact projSum_sameCells (sameCells_prepare g0) v
      have hlt : tileCountZ g0 < (g0.size : Int) * g0.size := by
        have := tileCountZ_lt_of_avail hfw hfa
        rw [hceq, hsz] at this
        exact this
      refine Or.inr ⟨by rw [hcount2, hceq], ?_, hlt⟩
      rw [hcount2] at *
      rw [hproj2, hpeq]
      omega
    · exact Or.inl (by rw [hcount2]; exact hca)
    · refine Or.inr ⟨by rw [hcount2]; exact hcb.1, ?_, hcb.2.2⟩
      rw [hproj2]
      have := hcb.2.1
      omega

theorem merge_meas (d : Fin 4) {v : Pos} (hv : v = getVector d) {g0 : Grid}
    {st : MoveState} {c : Pos} {tile nt : Tile}
    (hInv : MeasInv g0 v st)
    (hc : cellContent st.grid c = some tile)
    (hn : cellContent st.grid (findFarthestPosition st.grid c v).2 = some nt)
    {st' : MoveState} {mg : Tile}
    (hmgx : mg.x = (findFarthestPosition st.grid c v).2.1)
    (hmgy : mg.y = (findFarthestPosition st.grid c v).2.2)
    (hg : st'.grid = removeTile (insertTile st.grid mg) tile)
    (hm : st'.moved =
      (st.moved || !(decide (c = (findFarthestPosition st.grid c v).2)))) :
    MeasInv g0 v st' := by
  obtain ⟨hwf, hcoh, hsz, hbr⟩ := hInv
  have hnw := within_of_cellContent_some hn
  have hcw := within_of_cellContent_some hc
  have hxy := coherent_iff.1 hcoh c tile hc
  have hpos : ((tile.x, tile.y) : Pos) = c := Prod.ext hxy.1 hxy.2
  have hmgpos : ((mg.x, mg.y) : Pos) = (findFarthestPosition st.grid c v).2 :=
    Prod.ext hmgx hmgy
  have hnc : c ≠ (findFarthestPosition st.grid c v).2 := by
    have := ff_next_ne st.grid c d
    rw [← hv] at this
    exact fun h => this h.symm
  have hg1 : insertTile st.grid mg =
      setCell st.grid (findFarthestPosition st.grid c v).2 (some mg) := by
    unfold insertTile
    rw [hmgpos]
  have hwf1 : wellFormed (insertTile st.grid mg) = true := by
    rw [hg1]
    exact wellFormed_setCell _ _ hwf
  have hsz1 : (insertTile st.grid mg).size = st.grid.size := by
    rw [hg1]
    exact size_setCell ..
  have hcoh1 : coherent (insertTile st.grid mg) = true := by
    rw [hg1]
    refine coherent_setCell hwf hcoh ?_
    intro tl h
    cases Option.some.inj h
    exact ⟨hmgx, hmgy⟩
  have hcc1 : cellContent (insertTile st.grid mg) c = some tile := by
    rw [hg1, cellContent_setCell_ne _ hwf hnc]
    exact hc
  have hcnt1 : tileCountZ (insertTile st.grid mg) = tileCountZ st.grid := by
    rw [hg1, tileCountZ_setCell _ hwf hnw, hn]
    simp
  have hrem : removeTile (insertTile st.grid mg) tile =
      setCell (insertTile st.grid mg) c none := by
    unfold removeTile
    rw [hpos]
  have hcw1 : withinBounds (insertTile st.grid mg) c = true := by
    rw [within_congr_size hsz1]
    exact hcw
  have hcnt2 : tileCountZ st'.grid = tileCountZ st.grid - 1 := by
    rw [hg, hrem, tileCountZ_setCell _ hwf1 hcw1, hcc1, hcnt1]
    simp
  have hwf2 : wellFormed st'.grid = true := by
    rw [hg, hrem]
    exact wellFormed_setCell _ _ hwf1
  have hcoh2 : coherent st'.grid = true := by
    rw [hg, hrem]
    exact coherent_setCell hwf1 hcoh1 (fun tl h => Option.noConfusion h)
  have hsz2 : st'.grid.size = g0.size := by
    rw [hg, hrem, size_setCell, hsz1, hsz]
  have hmoved : st'.moved = true := by
    rw [hm]
    simp [hnc]
  refine ⟨hwf2, hcoh2, hsz2, Or.inr ⟨hmoved, Or.inl ?_⟩⟩
  rcases hbr with hinit | ⟨hmv, hca | hcb⟩
  · have hgp : st.grid = prepareGrid g0 := by rw [hinit]
    have hceq : tileCountZ st.grid = tileCountZ g0 := by
      rw [hgp]
      exact tileCountZ_sameCells (sameCells_prepare g0)
    omega
  · omega
  · have := hcb.1
    omega

/-- One traversal step preserves the measure invariant. -/
theorem moveStep_meas (d : Fin 4) {v : Pos} (hv : v = getVector d) {g0 : Grid}
    {st : MoveState} (c : Pos) (hInv : MeasInv g0 v st) :
    MeasInv g0 v (moveStep v st c) := by
  cases hc : cellContent st.grid c with
  | none =>
    simp only [moveStep, hc]
    exact hInv
  | some tile =>
    cases hn : cellContent st.grid (findFarthestPosition st.grid c v).2 with
    | none =>
      simp only [moveStep, hc, hn]
      exact slide_meas d hv hInv hc
    | some nt =>
      simp only [moveStep, hc, hn]
      split
      case isTrue hguard =>
        exact merge_meas d hv hInv hc hn rfl rfl rfl rfl
      case isFalse hguard =>
        exact slide_meas d hv hInv hc

theorem foldl_moveStep_meas (d : Fin 4) {v : Pos} (hv : v = getVector d)
    (g0 : Grid) :
    ∀ (l : List Pos) (st : MoveState), MeasInv g0 v st →
      MeasInv g0 v (l.foldl (moveStep v) st) := by
  intro l
  induction l with
  | nil => intro st h; exact h
  | cons c rest ih =>
    intro st h
    rw [List.foldl_cons]
    exact ih _ (moveStep_meas d hv c h)

theorem moveCore_meas (g : Grid) (d : Fin 4)
    (hwf : wellFormed g = true) (hcoh : coherent g = true) :
    MeasInv g (getVector d) (moveCore g d) := by
  unfold moveCore
  refine foldl_moveStep_meas d rfl g _ _ ?_
  exact ⟨wellFormed_prepare hwf, coherent_prepare hcoh, rfl, Or.inl rfl⟩

/-- When no tile moved, the slide/merge phase leaves everything untouched
(the grid is only re-prepared: merger markers cleared, positions saved). -/
theorem moveCore_not_moved (g : Grid) (d : Fin 4)
    (hwf : wellFormed g = true) (hcoh : coherent g = true)
    (hm : (moveCore g d).moved = false) :
    moveCore g d = { grid := prepareGrid g, score := 0, won := false, moved := false, events := [] } := by
  rcases moveCore_meas g d hwf hcoh with ⟨_, _, _, hbr | ⟨hmv, _⟩⟩
  · exact hbr
  · rw [hm] at hmv
    exact Bool.noConfusion hmv

/-- When a tile moved, the move really changed the occupancy/value
projection of the board, and the resulting board has an empty cell (so the
random spawn succeeds). -/
theorem moveCore_changes (g : Grid) (d : Fin 4)
    (hwf : wellFormed g = true) (hcoh : coherent g = true)
    (hm : (moveCore g d).moved = true) :
    valueGrid (moveCore g d).grid ≠ valueGrid g ∧
      cellsAvailable (moveCore g d).grid = true := by
  rcases moveCore_meas g d hwf hcoh with ⟨_, _, hsz, hbr | ⟨hmv, hmeas⟩⟩
  · rw [hbr] at hm
    exact Bool.noConfusion hm
  · have hle := tileCountZ_le g
    have hne : valueGrid (moveCore g d).grid ≠ valueGrid g := by
      intro he
      have hsc := valueGrid_eq_sameCells he
      have hce := tileCountZ_sameCells hsc
      have hpe := projSum_sameCells hsc (getVector d)
      rcases hmeas with h | ⟨h1, h2, _⟩
      · omega
      · omega
    refine ⟨hne, ?_⟩
    have hlt : tileCountZ (moveCore g d).grid <
        ((moveCore g d).grid.size : Int) * (moveCore g d).grid.size := by
      rw [hsz]
      rcases hmeas with h | ⟨h1, _, h3⟩
      · omega
      · omega
    exact avail_of_tileCountZ_lt hlt

/-! ### Score accounting: the score delta of a move is exactly the sum of
the values of the merged tiles it created. -/

/-- Sum of the values of the merged tiles recorded in a move's events. -/
def sumEvents (l : List MergeEvent) : Int := (l.map MergeEvent.value).sum

theorem sumEvents_append_one (l : List MergeEvent) (e : MergeEvent) :
    sumEvents (l ++ [e]) = sumEvents l + e.value := by
  unfold sumEvents
  rw [List.map_append, List.sum_append]
  simp

theorem sumEvents_nonneg {l : List MergeEvent}
    (h : ∀ e ∈ l, 0 < e.value) : 0 ≤ sumEvents l := by
  induction l with
  | nil => simp [sumEvents]
  | cons e rest ih =>
    have h1 := h e (List.mem_cons_self ..)
    have h2 : 0 ≤ sumEvents rest := ih fun e2 he2 => h e2 (List.mem_cons_of_mem _ he2)
    unfold sumEvents at *
    simp only [List.map_cons, List.sum_cons]
    omega

theorem moveStep_score_events (v : Pos) (st : MoveState) (c : Pos)
    (h : st.score = sumEvents st.events) :
    (moveStep v st c).score = sumEvents (moveStep v st c).events := by
  cases hc : cellContent st.grid c with
  | none => simp only [moveStep, hc]; exact h
  | some tile =>
    cases hn : cellContent st.grid (findFarthestPosition st.grid c v).2 with
    | none => simp only [moveStep, hc, hn]; exact h
    | some nt =>
      simp only [moveStep, hc, hn]
      split
      · rw [sumEvents_append_one, ← h]
      · exact h

theorem moveCore_score_eq_events (g : Grid) (d : Fin 4) :
    (moveCore g d).score = sumEvents (moveCore g d).events := by
  unfold moveCore
  have : ∀ (l : List Pos) (st : MoveState), st.score = sumEvents st.events →
      (l.foldl (moveStep (getVector d)) st).score =
        sumEvents (l.foldl (moveStep (getVector d)) st).events := by
    intro l
    induction l with
    | nil => intro st h; exact h
    | cons c rest ih =>
      intro st h
      rw [List.foldl_cons]
      exact ih _ (moveStep_score_events _ st c h)
  exact this (traversalList g.size (getVector d)) { grid := prepareGrid g, score := 0, won := false, moved := false, events := [] } (by simp [sumEvents])

/-- A step either leaves the event list alone or raises `moved`. -/
theorem moveStep_events_or_moved (d : Fin 4) {v : Pos} (hv : v = getVector d)
    (st : MoveState) (c : Pos) :
    (moveStep v st c).events = st.events ∨ (moveStep v st c).moved = true := by
  cases hc : cellContent st.grid c with
  | none => exact Or.inl (by simp only [moveStep, hc])
  | some tile =>
    cases hn : cellContent st.grid (findFarthestPosition st.grid c v).2 with
    | none => exact Or.inl (by simp only [moveStep, hc, hn])
    | some nt =>
      simp only [moveStep, hc, hn]
      split
      · right
        have hnc : (findFarthestPosition st.grid c v).2 ≠ c := by
          rw [hv]
          exact ff_next_ne st.grid c d
        have : ¬ (c = (findFarthestPosition st.grid c v).2) := fun h => hnc h.symm
        simp [this]
      · exact Or.inl rfl

theorem foldl_events_of_not_moved (d : Fin 4) {v : Pos} (hv : v = getVector d) :
    ∀ (l : List Pos) (st : MoveState),
      (l.foldl (moveStep v) st).moved = false →
      (l.foldl (moveStep v) st).events = st.events := by
  intro l
  induction l with
  | nil => intro st _; rfl
  | cons c rest ih =>
    intro st hm
    rw [List.foldl_cons] at hm ⊢
    rcases moveStep_events_or_moved d hv st c with he | hmv
    · rw [ih _ hm, he]
    · have := foldl_moveStep_mono v rest _ hmv
      rw [this] at hm
      exact Bool.noConfusion hm

theorem moveCore_events_nil_of_not_moved (g : Grid) (d : Fin 4)
    (hm : (moveCore g d).moved = false) : (moveCore g d).events = [] := by
  unfold moveCore at hm ⊢
  exact foldl_events_of_not_moved d rfl _ _ hm

theorem moveCore_score_zero_of_not_moved (g : Grid) (d : Fin 4)
    (hm : (moveCore g d).moved = false) : (moveCore g d).score = 0 := by
  rw [moveCore_score_eq_events, moveCore_events_nil_of_not_moved g d hm]
  rfl

/-! ### Positivity: tile values stay positive and event values are positive. -/

theorem posValues_setCell {g : Grid} {p : Pos} {t : Option Tile}
    (hwf : wellFormed g = true) (hpv : posValues g = true)
    (ht : ∀ tl, t = some tl → 0 < tl.value) :
    posValues (setCell g p t) = true := by
  refine posValues_iff.2 fun q tl hq => ?_
  by_cases hqp : q = p
  · subst hqp
    by_cases hw : withinBounds g q = true
    · rw [cellContent_setCell_self t hwf hw] at hq
      exact ht tl hq
    · rw [setCell_not_within hw] at hq
      exact posValues_iff.1 hpv q tl hq
  · rw [cellContent_setCell_ne t hwf hqp] at hq
    exact posValues_iff.1 hpv q tl hq

/-- Structural invariant for the positivity argument. -/
def PosInv (st : MoveState) : Prop :=
  wellFormed st.grid = true ∧ coherent st.grid = true ∧
    posValues st.grid = true ∧ (∀ e ∈ st.events, 0 < e.value)

theorem moveStep_posInv {v : Pos} (st : MoveState) (c : Pos)
    (h : PosInv st) : PosInv (moveStep v st c) := by
  obtain ⟨hwf, hcoh, hpv, hev⟩ := h
  cases hc : cellContent st.grid c with
  | none => simp only [moveStep, hc]; exact ⟨hwf, hcoh, hpv, hev⟩
  | some tile =>
    have hxy := coherent_iff.1 hcoh c tile hc
    have hpos : ((tile.x, tile.y) : Pos) = c := Prod.ext hxy.1 hxy.2
    have htv : 0 < tile.value := posValues_iff.1 hpv c tile hc
    have hslide : PosInv { st with grid := moveTile st.grid tile (findFarthestPosition st.grid c v).1, moved := (st.moved || !(decide (c = (findFarthestPosition st.grid c v).1))) } := by
      have hwf1 : wellFormed (setCell st.grid (tile.x, tile.y) none) = true :=
        wellFormed_setCell _ _ hwf
      refine ⟨?_, ?_, ?_, hev⟩
      · exact wellFormed_setCell _ _ hwf1
      · refine coherent_setCell hwf1 ?_ ?_
        · exact coherent_setCell hwf hcoh (fun tl ht => Option.noConfusion ht)
        · intro tl ht
          cases Option.some.inj ht
          exact ⟨rfl, rfl⟩
      · refine posValues_setCell hwf1 ?_ ?_
        · exact posValues_setCell hwf hpv (fun tl ht => Option.noConfusion ht)
        · intro tl ht
          cases Option.some.inj ht
          exact htv
    cases hn : cellContent st.grid (findFarthestPosition st.grid c v).2 with
    | none =>
      simp only [moveStep, hc, hn]
      exact hslide
    | some nt =>
      simp only [moveStep, hc, hn]
      split
      case isFalse hguard => exact hslide
      case isTrue hguard =>
        have hnw := within_of_cellContent_some hn
        have hwf1 : wellFormed (insertTile st.grid { x := (findFarthestPosition st.grid c v).2.1, y := (findFarthestPosition st.grid c v).2.2, value := tile.value * 2, previousPosition := none, mergedFrom := true }) = true := by
          unfold insertTile
          exact wellFormed_setCell _ _ hwf
        refine ⟨?_, ?_, ?_, ?_⟩
        · unfold removeTile
          exact wellFormed_setCell _ _ hwf1
        · unfold removeTile
          refine coherent_setCell hwf1 ?_ (fun tl ht => Option.noConfusion ht)
          unfold insertTile
          refine coherent_setCell hwf hcoh ?_
          intro tl ht
          cases Option.some.inj ht
          exact ⟨rfl, rfl⟩
        · unfold removeTile
          refine posValues_setCell hwf1 ?_ (fun tl ht => Option.noConfusion ht)
          unfold insertTile
          refine posValues_setCell hwf hpv ?_
          intro tl ht
          cases Option.some.inj ht
          simp only
          omega
        · intro e he
          rw [List.mem_append] at he
          rcases he with he | he
          · exact hev e he
          · rw [List.mem_singleton] at he
            rw [he]
            simp only
            omega

theorem moveCore_posInv (g : Grid) (d : Fin 4)
    (hwf : wellFormed g = true) (hcoh : coherent g = true)
    (hpv : posValues g = true) : PosInv (moveCore g d) := by
  unfold moveCore
  have : ∀ (l : List Pos) (st : MoveState), PosInv st →
      PosInv (l.foldl (moveStep (getVector d)) st) := by
    intro l
    induction l with
    | nil => intro st h; exact h
    | cons c rest ih =>
      intro st h
      rw [List.foldl_cons]
      exact ih _ (moveStep_posInv st c h)
  refine this _ _ ⟨wellFormed_prepare hwf, coherent_prepare hcoh, posValues_prepare hpv, ?_⟩
  intro e he
  exact absurd he (List.not_mem_nil e)

/-! ### Structural preservation of one traversal step -/

theorem moveStep_struct {v : Pos} (st : MoveState) (c : Pos)
    (hwf : wellFormed st.grid = true) (hcoh : coherent st.grid = true) :
    wellFormed (moveStep v st c).grid = true ∧
    coherent (moveStep v st c).grid = true ∧
    (moveStep v st c).grid.size = st.grid.size := by
  cases hc : cellContent st.grid c with
  | none =>
    have he : moveStep v st c = st := by simp only [moveStep, hc]
    rw [he]
    exact ⟨hwf, hcoh, rfl⟩
  | some tile =>
    have hxy := coherent_iff.1 hcoh c tile hc
    have hslide : wellFormed (moveTile st.grid tile (findFarthestPosition st.grid c v).1) = true ∧ coherent (moveTile st.grid tile (findFarthestPosition st.grid c v).1) = true ∧ (moveTile st.grid tile (findFarthestPosition st.grid c v).1).size = st.grid.size := by
      have hwf1 : wellFormed (setCell st.grid (tile.x, tile.y) none) = true :=
        wellFormed_setCell _ _ hwf
      refine ⟨wellFormed_setCell _ _ hwf1, ?_, ?_⟩
      · refine coherent_setCell hwf1 ?_ ?_
        · exact coherent_setCell hwf hcoh (fun tl ht => Option.noConfusion ht)
        · intro tl ht
          cases Option.some.inj ht
          exact ⟨rfl, rfl⟩
      · unfold moveTile
        rw [size_setCell, size_setCell]
    cases hn : cellContent st.grid (findFarthestPosition st.grid c v).2 with
    | none =>
      simp only [moveStep, hc, hn]
      exact hslide
    | some nt =>
      simp only [moveStep, hc, hn]
      split
      case isFalse hguard => exact hslide
      case isTrue hguard =>
        have hwf1 : wellFormed (insertTile st.grid { x := (findFarthestPosition st.grid c v).2.1, y := (findFarthestPosition st.grid c v).2.2, value := tile.value * 2, previousPosition := none, mergedFrom := true }) = true := by
          unfold insertTile
          exact wellFormed_setCell _ _ hwf
        refine ⟨?_, ?_, ?_⟩
        · unfold removeTile
          exact wellFormed_setCell _ _ hwf1
        · unfold removeTile
          refine coherent_setCell hwf1 ?_ (fun tl ht => Option.noConfusion ht)
          unfold insertTile
          refine coherent_setCell hwf hcoh ?_
          intro tl ht
          cases Option.some.inj ht
          exact ⟨rfl, rfl⟩
        · unfold removeTile insertTile
          rw [size_setCell, size_setCell]

/-! ### The merge-once invariant: a tile created by a merge is never
consumed by a later merge in the same move. -/

/-- No tile carrying a merger marker sits on a cell of `l`. -/
def ProductsNotIn (g : Grid) (l : List Pos) : Prop :=
  ∀ p t, cellContent g p = some t → t.mergedFrom = true → ¬ p ∈ l

/-- Every cell reachable by walking 1..n steps from `c` along `v` avoids the
list `t` (the still-unvisited traversal tail): merge products are created
only on such cells, hence on already-visited cells. -/
def lineNotInTail (n : Nat) (v : Pos) (c : Pos) (t : List Pos) : Bool :=
  (List.range n).all fun k0 => decide (¬ (padd c (psmul (k0 + 1) v)) ∈ t)

/-- The traversal order visits the target of any forward walk before its
source. -/
def orderOKB (n : Nat) (v : Pos) : List Pos → Bool
  | [] => true
  | c :: t => lineNotInTail n v c t && orderOKB n v t

/-- On the 4×4 board every direction's traversal is ordered
farthest-in-travel-direction first. -/
theorem orderOK_traversal :
    ∀ d : Fin 4, orderOKB 4 (getVector d) (traversalList 4 (getVector d)) = true := by
  decide

theorem k_lt_size (d : Fin 4) {g : Grid} {c : Pos} {k : Nat}
    (hc : withinBounds g c = true)
    (hk : withinBounds g (padd c (psmul k (getVector d))) = true) :
    k < g.size := by
  rw [within_iff] at hc hk
  fin_cases d <;>
  · simp only [getVector, padd, psmul] at hk
    omega

theorem moveStep_products (d : Fin 4) {v : Pos} (hv : v = getVector d)
    {st : MoveState} {c : Pos} {tail : List Pos}
    (hwf : wellFormed st.grid = true) (hcoh : coherent st.grid = true)
    (hprod : ProductsNotIn st.grid (c :: tail))
    (hline : ∀ k0 : Nat, k0 < st.grid.size →
      ¬ (padd c (psmul (k0 + 1) v)) ∈ tail) :
    ProductsNotIn (moveStep v st c).grid tail ∧
    (∀ e ∈ (moveStep v st c).events,
      e ∈ st.events ∨ (e.movingHadMerged = false ∧ e.nextHadMerged = false)) := by
  have hweak : ProductsNotIn st.grid tail := by
    intro p t hp hm hmem
    exact hprod p t hp hm (List.mem_cons_of_mem _ hmem)
  cases hc : cellContent st.grid c with
  | none =>
    simp only [moveStep, hc]
    exact ⟨hweak, fun e he => Or.inl he⟩
  | some tile =>
    have hcw := within_of_cellContent_some hc
    have hxy := coherent_iff.1 hcoh c tile hc
    have hpos : ((tile.x, tile.y) : Pos) = c := Prod.ext hxy.1 hxy.2
    have htm : tile.mergedFrom = false := by
      cases htm2 : tile.mergedFrom with
      | false => rfl
      | true => exact absurd (List.mem_cons_self ..) (hprod c tile hc htm2)
    have hfw : withinBounds st.grid (findFarthestPosition st.grid c v).1 = true := by
      by_cases hfc : (findFarthestPosition st.grid c v).1 = c
      · rw [hfc]; exact hcw
      · exact (ff_farthest_avail st.grid c v hfc).1
    have hwf1 : wellFormed (setCell st.grid c none) = true :=
      wellFormed_setCell _ _ hwf
    have hg1 : moveTile st.grid tile (findFarthestPosition st.grid c v).1 =
        setCell (setCell st.grid c none) (findFarthestPosition st.grid c v).1
          (some { tile with x := (findFarthestPosition st.grid c v).1.1, y := (findFarthestPosition st.grid c v).1.2 }) := by
      unfold moveTile
      rw [hpos]
    have hfw1 : withinBounds (setCell st.grid c none)
        (findFarthestPosition st.grid c v).1 = true := by
      rw [within_congr_size (size_setCell ..)]
      exact hfw
    have hslide : ProductsNotIn
        (moveTile st.grid tile (findFarthestPosition st.grid c v).1) tail := by
      intro p t hp hm hmem
      rw [hg1] at hp
      by_cases hpf : p = (findFarthestPosition st.grid c v).1
      · rw [hpf, cellContent_setCell_self _ hwf1 hfw1] at hp
        have := Option.some.inj hp
        rw [← this] at hm
        simp only at hm
        rw [htm] at hm
        exact Bool.noConfusion hm
      · rw [cellContent_setCell_ne _ hwf1 hpf] at hp
        by_cases hpc : p = c
        · rw [hpc, cellContent_setCell_self _ hwf hcw] at hp
          exact Option.noConfusion hp
        · rw [cellContent_setCell_ne _ hwf hpc] at hp
          exact hweak p t hp hm hmem
    cases hn : cellContent st.grid (findFarthestPosition st.grid c v).2 with
    | none =>
      simp only [moveStep, hc, hn]
      exact ⟨hslide, fun e he => Or.inl he⟩
    | some nt =>
      simp only [moveStep, hc, hn]
      split
      case isFalse hguard => exact ⟨hslide, fun e he => Or.inl he⟩
      case isTrue hguard =>
        have hnw := within_of_cellContent_some hn
        have hnc : c ≠ (findFarthestPosition st.grid c v).2 := by
          have := ff_next_ne st.grid c d
          rw [← hv] at this
          exact fun h => this h.symm
        have hg1 : insertTile st.grid { x := (findFarthestPosition st.grid c v).2.1, y := (findFarthestPosition st.grid c v).2.2, value := tile.value * 2, previousPosition := none, mergedFrom := true } = setCell st.grid (findFarthestPosition st.grid c v).2 (some { x := (findFarthestPosition st.grid c v).2.1, y := (findFarthestPosition st.grid c v).2.2, value := tile.value * 2, previousPosition := none, mergedFrom := true }) := rfl
        have hwfi : wellFormed (setCell st.grid (findFarthestPosition st.grid c v).2
            (some { x := (findFarthestPosition st.grid c v).2.1, y := (findFarthestPosition st.grid c v).2.2, value := tile.value * 2, previousPosition := none, mergedFrom := true })) = true :=
          wellFormed_setCell _ _ hwf
        have hnotintail : ¬ (findFarthestPosition st.grid c v).2 ∈ tail := by
          rcases ff_shape st.grid c v with ⟨j, hj1, hj2⟩
          have hshape : (findFarthestPosition st.grid c v).2 =
              padd c (psmul (j + 1) v) := by
            rw [hj2, hj1, padd_psmul_step]
          have hkw : withinBounds st.grid (padd c (psmul (j + 1) (getVector d))) = true := by
            rw [← hv, ← hshape]
            exact hnw
          have hklt : j + 1 < st.grid.size := k_lt_size d hcw hkw
          have := hline j (by omega)
          rw [hshape]
          exact this
        constructor
        · intro p t hp hm hmem
          unfold removeTile at hp
          rw [hpos] at hp
          by_cases hpc : p = c
          · rw [hpc, cellContent_setCell_self _ (by rw [hg1] at *; exact hwfi) (by rw [within_congr_size]; exact hcw; rw [hg1, size_setCell])] at hp
            exact Option.noConfusion hp
          · rw [cellContent_setCell_ne _ (by rw [hg1] at *; exact hwfi) hpc] at hp
            by_cases hpn : p = (findFarthestPosition st.grid c v).2
            · rw [hpn] at hmem
              exact hnotintail hmem
            · rw [hg1, cellContent_setCell_ne _ hwf hpn] at hp
              exact hweak p t hp hm hmem
        · intro e he
          rw [List.mem_append] at he
          rcases he with he | he
          · exact Or.inl he
          · rw [List.mem_singleton] at he
            right
            rw [he]
            refine ⟨htm, ?_⟩
            simp only
            have hg2 : decide (nt.value = tile.value) = true ∧
                (!nt.mergedFrom) = true := Bool.and_eq_true .. ▸ hguard
            have h2 := hg2.2
            cases hmf : nt.mergedFrom with
            | false => rfl
            | true => rw [hmf] at h2; exact Bool.noConfusion h2

theorem foldl_products_events (d : Fin 4) {v : Pos} (hv : v = getVector d)
    (n : Nat) :
    ∀ (l : List Pos) (st : MoveState),
      wellFormed st.grid = true → coherent st.grid = true → st.grid.size = n →
      ProductsNotIn st.grid l → orderOKB n v l = true →
      (∀ e ∈ st.events, e.movingHadMerged = false ∧ e.nextHadMerged = false) →
      ∀ e ∈ (l.foldl (moveStep v) st).events,
        e.movingHadMerged = false ∧ e.nextHadMerged = false := by
  intro l
  induction l with
  | nil => intro st _ _ _ _ _ hev; exact hev
  | cons c tail ih =>
    intro st hwf hcoh hszn hprod hord hev
    rw [List.foldl_cons]
    have hord1 : lineNotInTail n v c tail = true ∧ orderOKB n v tail = true := by
      have h0 := hord
      unfold orderOKB at h0
      exact Bool.and_eq_true .. ▸ h0
    have hline : ∀ k0 : Nat, k0 < st.grid.size →
        ¬ (padd c (psmul (k0 + 1) v)) ∈ tail := by
      intro k0 hk0
      have := hord1.1
      unfold lineNotInTail at this
      rw [List.all_eq_true] at this
      have := this k0 (List.mem_range.2 (by omega))
      exact of_decide_eq_true this
    obtain ⟨hprod2, hevstep⟩ := moveStep_products d hv hwf hcoh hprod hline
    obtain ⟨hwf2, hcoh2, hsz2⟩ := moveStep_struct st c hwf hcoh
    refine ih (moveStep v st c) hwf2 hcoh2 (by rw [hsz2]; exact hszn) hprod2
      hord1.2 ?_
    intro e he
    rcases hevstep e he with h | h
    · exact hev e h
    · exact h

theorem moveCore_merge_once (g : Grid) (d : Fin 4)
    (hwf : wellFormed g = true) (hcoh : coherent g = true)
    (hsz : g.size = 4) :
    ∀ e ∈ (moveCore g d).events,
      e.movingHadMerged = false ∧ e.nextHadMerged = false := by
  unfold moveCore
  refine foldl_products_events d rfl 4 _
    { grid := prepareGrid g, score := 0, won := false, moved := false, events := [] }
    (wellFormed_prepare hwf) (coherent_prepare hcoh) hsz ?_ ?_ ?_
  · intro p t hp hm _
    have := allClear_iff.1 (allClear_prepare g) p t hp
    rw [this] at hm
    exact Bool.noConfusion hm
  · show orderOKB 4 (getVector d) (traversalList (prepareGrid g).size (getVector d)) = true
    have : (prepareGrid g).size = 4 := hsz
    rw [this]
    exact orderOK_traversal d
  · intro e he
    exact absurd he (List.not_mem_nil e)

/-! ### Characterizations of availability and adjacency -/

theorem mem_availableCellsList {g : Grid} {q : Pos} :
    q ∈ availableCellsList g ↔
      withinBounds g q = true ∧ cellContent g q = none := by
  unfold availableCellsList
  rw [List.mem_flatMap]
  constructor
  · rintro ⟨x, hx, hq⟩
    rw [List.mem_filterMap] at hq
    obtain ⟨y, hy, hq⟩ := hq
    rw [List.mem_range] at hx hy
    by_cases hav : cellAvailable g ((x : Int), (y : Int)) = true
    · rw [if_pos hav] at hq
      cases Option.some.inj hq
      refine ⟨?_, ?_⟩
      · rw [within_iff]
        push_cast
        omega
      · unfold cellAvailable at hav
        cases hcc : cellContent g ((x : Int), (y : Int)) with
        | none => rfl
        | some t => rw [hcc] at hav; simp at hav
    · rw [if_neg hav] at hq
      exact Option.noConfusion hq
  · rintro ⟨hw, hc⟩
    rcases within_iff.1 hw with ⟨h1, h2, h3, h4⟩
    refine ⟨q.1.toNat, List.mem_range.2 (by omega), ?_⟩
    rw [List.mem_filterMap]
    refine ⟨q.2.toNat, List.mem_range.2 (by omega), ?_⟩
    rw [pos_of_toNat h1 h3]
    rw [if_pos (by unfold cellAvailable; rw [hc]; rfl)]

theorem cellsAvailable_iff {g : Grid} :
    cellsAvailable g = true ↔
      ∃ p : Pos, withinBounds g p = true ∧ cellContent g p = none := by
  unfold cellsAvailable
  constructor
  · intro h
    cases hl : availableCellsList g with
    | nil => rw [hl] at h; simp at h
    | cons a as =>
      have : a ∈ availableCellsList g := by rw [hl]; exact List.mem_cons_self ..
      exact ⟨a, mem_availableCellsList.1 this⟩
  · rintro ⟨p, hw, hc⟩
    have : p ∈ availableCellsList g := mem_availableCellsList.2 ⟨hw, hc⟩
    cases hl : availableCellsList g with
    | nil => rw [hl] at this; exact absurd this (List.not_mem_nil p)
    | cons a as => simp [hl]

theorem tileMatchesAvailable_iff {g : Grid} :
    tileMatchesAvailable g = true ↔
      ∃ (p : Pos) (t : Tile), cellContent g p = some t ∧
        ∃ (d : Fin 4) (t2 : Tile),
          cellContent g (padd p (getVector d)) = some t2 ∧ t2.value = t.value := by
  unfold tileMatchesAvailable
  rw [List.any_eq_true]
  constructor
  · rintro ⟨x, hx, h⟩
    rw [List.any_eq_true] at h
    obtain ⟨y, hy, h⟩ := h
    rw [List.mem_range] at hx hy
    cases hc : cellContent g ((x : Int), (y : Int)) with
    | none => rw [hc] at h; exact Bool.noConfusion h
    | some tile =>
      rw [hc] at h
      rw [List.any_eq_true] at h
      obtain ⟨d, _, h⟩ := h
      cases ho : cellContent g ((x : Int) + (getVector d).1, (y : Int) + (getVector d).2) with
      | none => rw [ho] at h; exact Bool.noConfusion h
      | some other =>
        rw [ho] at h
        refine ⟨((x : Int), (y : Int)), tile, hc, d, other, ?_, ?_⟩
        · rw [show padd ((x : Int), (y : Int)) (getVector d) =
            ((x : Int) + (getVector d).1, (y : Int) + (getVector d).2) from rfl]
          exact ho
        · exact of_decide_eq_true h
  · rintro ⟨p, t, hc, d, t2, ho, hv⟩
    have hw := within_of_cellContent_some hc
    rcases within_iff.1 hw with ⟨h1, h2, h3, h4⟩
    refine ⟨p.1.toNat, List.mem_range.2 (by omega), ?_⟩
    rw [List.any_eq_true]
    refine ⟨p.2.toNat, List.mem_range.2 (by omega), ?_⟩
    have e1 : ((p.1.toNat : Int)) = p.1 := Int.toNat_of_nonneg h1
    have e2 : ((p.2.toNat : Int)) = p.2 := Int.toNat_of_nonneg h3
    rw [e1, e2]
    rw [hc]
    rw [List.any_eq_true]
    refine ⟨d, List.mem_finRange d, ?_⟩
    rw [show ((p.1 + (getVector d).1, p.2 + (getVector d).2) : Pos) =
      padd p (getVector d) from rfl]
    rw [ho]
    exact decide_eq_true hv

/-! ### Random spawn lemmas -/

theorem addRandomTile_spawned (g : Grid) (or : SpawnOracle) :
    (addRandomTile g or).2 = cellsAvailable g := by
  unfold addRandomTile cellsAvailable
  split
  case isTrue h => simp [h]
  case isFalse h => simp [h]

theorem addRandomTile_inv (g : Grid) (or : SpawnOracle)
    (hwf : wellFormed g = true) (hcoh : coherent g = true)
    (hpv : posValues g = true) :
    wellFormed (addRandomTile g or).1 = true ∧
    coherent (addRandomTile g or).1 = true ∧
    posValues (addRandomTile g or).1 = true := by
  unfold addRandomTile
  split
  case isTrue => exact ⟨hwf, hcoh, hpv⟩
  case isFalse hne =>
    have hlen : 0 < (availableCellsList g).length := by
      cases hl : availableCellsList g with
      | nil => rw [hl] at hne; simp at hne
      | cons a as => simp [hl]
    have hmem : (availableCellsList g).getD
        (or.idx % (availableCellsList g).length) (0, 0) ∈ availableCellsList g :=
      getD_mem _ _ _ (Nat.mod_lt _ hlen)
    have hq := mem_availableCellsList.1 hmem
    have hins : ∀ (val : Int), 0 < val →
        wellFormed (insertTile g (mkTile ((availableCellsList g).getD (or.idx % (availableCellsList g).length) (0, 0)) val)) = true ∧
        coherent (insertTile g (mkTile ((availableCellsList g).getD (or.idx % (availableCellsList g).length) (0, 0)) val)) = true ∧
        posValues (insertTile g (mkTile ((availableCellsList g).getD (or.idx % (availableCellsList g).length) (0, 0)) val)) = true := by
      intro val hval
      unfold insertTile
      refine ⟨wellFormed_setCell _ _ hwf, ?_, ?_⟩
      · refine coherent_setCell hwf hcoh ?_
        intro tl ht
        cases Option.some.inj ht
        exact ⟨rfl, rfl⟩
      · refine posValues_setCell hwf hpv ?_
        intro tl ht
        cases Option.some.inj ht
        exact hval
    exact hins (if or.four then 4 else 2) (by split <;> omega)

/-- `valueGrid` ignores the bookkeeping fields touched by `prepareTiles`. -/
theorem valueGrid_prepare (g : Grid) : valueGrid (prepareGrid g) = valueGrid g := by
  unfold valueGrid prepareGrid
  refine Prod.ext rfl ?_
  show (g.cells.map _).map _ = g.cells.map _
  rw [List.map_map]
  congr 1
  funext col
  simp only [Function.comp]
  rw [List.map_map]
  congr 1
  funext ot
  cases ot with
  | none => rfl
  | some t => rfl

/-- Legality in the glossary's sense — the move changes some cell's
occupancy or value — coincides with the `moved` flag of the slide/merge
phase. -/
theorem legal_iff_moved (live : Grid) (d : Fin 4)
    (hwf : wellFormed live = true) (hcoh : coherent live = true) :
    (valueGrid (moveCore live d).grid ≠ valueGrid live) ↔
      (moveCore live d).moved = true := by
  constructor
  · intro hne
    cases hm : (moveCore live d).moved with
    | true => rfl
    | false =>
      exfalso
      apply hne
      rw [moveCore_not_moved live d hwf hcoh hm]
      exact valueGrid_prepare live
  · intro hm
    exact (moveCore_changes live d hwf hcoh hm).1

/-! ### Game-state invariant through `moveGM` and move sequences -/

/-- The state invariant of a reachable game: the grid is a well-formed
table, tiles sit on their own cells, and all values are positive. -/
def StateInv (s : GameState) : Prop :=
  wellFormed s.grid = true ∧ coherent s.grid = true ∧ posValues s.grid = true

theorem moveGM_inv (s : GameState) (d : Fin 4) (or : SpawnOracle)
    (h : StateInv s) :
    StateInv (moveGM s d or).1 ∧ s.score ≤ (moveGM s d or).1.score := by
  obtain ⟨hwf, hcoh, hpv⟩ := h
  unfold moveGM
  split
  case isTrue => exact ⟨⟨hwf, hcoh, hpv⟩, le_refl _⟩
  case isFalse hterm =>
    have hmeas := moveCore_meas s.grid d hwf hcoh
    have hposinv := moveCore_posInv s.grid d hwf hcoh hpv
    obtain ⟨hwf2, hcoh2, _, _⟩ := hmeas
    obtain ⟨_, _, hpv2, hev2⟩ := hposinv
    split
    case isTrue hmv =>
      have := addRandomTile_inv (moveCore s.grid d).grid or hwf2 hcoh2 hpv2
      refine ⟨⟨this.1, this.2.1, this.2.2⟩, ?_⟩
      show s.score ≤ s.score + (moveCore s.grid d).score
      have hnn : 0 ≤ (moveCore s.grid d).score := by
        rw [moveCore_score_eq_events]
        exact sumEvents_nonneg hev2
      omega
    case isFalse hmv =>
      exact ⟨⟨hwf2, hcoh2, hpv2⟩, le_refl _⟩

/-- The turn-loop path: apply a sequence of moves (each with its spawn
oracle) through `GameManager.move`. -/
def playMoves (s : GameState) (l : List (Fin 4 × SpawnOracle)) : GameState :=
  l.foldl (fun s2 p => (moveGM s2 p.1 p.2).1) s

theorem playMoves_mono :
    ∀ (l : List (Fin 4 × SpawnOracle)) (s : GameState), StateInv s →
      StateInv (playMoves s l) ∧ s.score ≤ (playMoves s l).score := by
  intro l
  induction l with
  | nil => intro s h; exact ⟨h, le_refl _⟩
  | cons p rest ih =>
    intro s h
    have h1 := moveGM_inv s p.1 p.2 h
    have h2 := ih (moveGM s p.1 p.2).1 h1.1
    refine ⟨h2.1, le_trans h1.2 ?_⟩
    exact h2.2

/-! ### Selection-loop lemmas -/

theorem finRange4 : (List.finRange 4 : List (Fin 4)) = [0, 1, 2, 3] := by decide

/-- Invariant of the selection fold: starting from a state whose stored score
is `none` or whose stored direction passes the probe, if some remaining
direction passes the probe (or the stored one already does), the final stored
direction passes the probe. -/
theorem pickBest_aux (probe : Fin 4 → Bool) (scoreOf : Fin 4 → ℚ) :
    ∀ (l : List (Fin 4)) (st : Option ℚ × Fin 4),
      (st.1 = none ∨ probe st.2 = true) →
      ((∃ d ∈ l, probe d = true) ∨ probe st.2 = true) →
      probe ((l.foldl (fun (st : Option ℚ × Fin 4) dir =>
        if probe dir then
          let s := scoreOf dir
          match st.1 with
          | none => (some s, dir)
          | some b => if b < s then (some s, dir) else st
        else st) st).2) = true := by
  intro l
  induction l with
  | nil =>
    intro st _ h2
    rcases h2 with h2 | h2
    · obtain ⟨d, hd, _⟩ := h2
      exact absurd hd (List.not_mem_nil d)
    · exact h2
  | cons c rest ih =>
    intro st h1 h2
    rw [List.foldl_cons]
    by_cases hc : probe c = true
    · rcases h1 with h1 | h1
      · obtain ⟨b0, d0⟩ := st
        simp only at h1
        subst h1
        simp only [hc, if_true]
        exact ih (some (scoreOf c), c) (Or.inr hc) (Or.inr hc)
      · obtain ⟨b0, d0⟩ := st
        cases b0 with
        | none =>
          simp only [hc, if_true]
          exact ih (some (scoreOf c), c) (Or.inr hc) (Or.inr hc)
        | some b =>
          simp only [hc, if_true]
          by_cases hb : b < scoreOf c
          · simp only [hb, if_true]
            exact ih (some (scoreOf c), c) (Or.inr hc) (Or.inr hc)
          · simp only [hb, if_false]
            exact ih (some b, d0) (Or.inr h1) (Or.inr h1)
    · simp only [hc, if_false]
      refine ih st h1 ?_
      rcases h2 with h2 | h2
      · obtain ⟨d, hd, hpd⟩ := h2
        rcases List.mem_cons.mp hd with rfl | hd
        · exact absurd hpd hc
        · exact Or.inl ⟨d, hd, hpd⟩
      · exact Or.inr h2

/-- Whenever some direction's probe succeeds, the selected direction's probe
succeeds: the loop only ever stores probe-true directions once one is seen. -/
theorem pickBest_probe_true (probe : Fin 4 → Bool) (sc : Fin 4 → ℚ)
    (h : ∃ d, probe d = true) :
    probe (pickBest none probe sc) = true := by
  unfold pickBest
  obtain ⟨d0, hd0⟩ := h
  exact pickBest_aux probe sc (List.finRange 4) (none, 0) (Or.inl rfl)
    (Or.inl ⟨d0, List.mem_finRange d0, hd0⟩)

theorem pickBest_default (probe : Fin 4 → Bool) (sc : Fin 4 → ℚ)
    (h : ∀ d, probe d = false) : pickBest none probe sc = 0 := by
  unfold pickBest
  rw [finRange4]
  simp [List.foldl, h 0, h 1, h 2, h 3]

/-- With all directions scored by a constant, the chosen direction does not
depend on the constant (it is the first probe-true direction). -/
theorem pickBest_const_eq (probe : Fin 4 → Bool) (a b : ℚ) :
    pickBest none probe (fun _ => a) = pickBest none probe (fun _ => b) := by
  unfold pickBest
  rw [finRange4]
  cases h0 : probe 0 <;> cases h1 : probe 1 <;> cases h2 : probe 2 <;>
    cases h3 : probe 3 <;>
    simp [List.foldl, h0, h1, h2, h3, lt_irrefl]

theorem pickBest_congr (init : Option ℚ) (probe : Fin 4 → Bool)
    {sc1 sc2 : Fin 4 → ℚ} (h : ∀ d, sc1 d = sc2 d) :
    pickBest init probe sc1 = pickBest init probe sc2 := by
  have : sc1 = sc2 := funext h
  rw [this]

/-! ### The expectimax chance layer computes the weighted average -/

theorem expChanceStep_fold (rec : Grid → ℚ) (g : Grid) :
    ∀ (l : List Pos) (a : ℚ) (k : Nat),
      l.foldl (expChanceStep rec g) (a, k) =
        (a + (l.map (fun c =>
          (9 / 10 : ℚ) * rec (insertTile (buildCopyT g) (mkTile c 2)) +
          (1 / 10 : ℚ) * rec (insertTile (buildCopyT g) (mkTile c 4)))).sum,
         k + l.length) := by
  intro l
  induction l with
  | nil => intro a k; simp
  | cons c rest ih =>
    intro a k
    rw [List.foldl_cons, ih]
    refine Prod.ext ?_ ?_
    · show a + (9 / 10 : ℚ) * rec _ + (1 / 10 : ℚ) * rec _ + _ = _
      rw [List.map_cons, List.sum_cons]
      ring
    · show k + 1 + rest.length = k + (c :: rest).length
      rw [List.length_cons]
      omega

/-! ## The claims -/

set_option maxRecDepth 40000 in
/-- C1: refuted — the result of `tryMove(direction, gridCopy)` does not
depend only on the grid copy and the direction, and does not coincide with
"resolving the move on the copy changes a cell": `findFarthestPosition`
ignores the grid argument forwarded by `tryMove` and walks the manager's
live grid instead.  With the same copy (a single `2` at `(1, 0)`) and the
same direction (left), the probe answers `false` against a fully occupied
live grid and `true` against an empty one, while resolving the move on the
copy itself does change a cell (`moved = true`). -/
theorem C1_tryMove_reads_live_grid :
    tryMoveB c1LiveFull 3 c1Copy = false ∧
    tryMoveB c1LiveEmpty 3 c1Copy = true ∧
    (moveCore c1Copy 3).moved = true :=
  ⟨by decide, by decide, by decide⟩

set_option maxRecDepth 40000 in
/-- C2: refuted — a strategy's `getNextMove` mutates the live game state:
every `tryMove` probe it issues calls `prepareTiles`, which walks the
manager's live grid (its grid argument is ignored), clears each live
tile's `mergedFrom` marker and overwrites its saved position.  On a live
grid whose tile at `(0, 0)` carries `mergedFrom = true` and saved position
`(1, 0)`, the naive strategy's call leaves a live grid that differs from
the original — only the occupancy/value projection survives. -/
theorem C2_getNextMove_mutates_live_tiles :
    (naiveGetNextMove c2Live).2 ≠ c2Live ∧
    (cellContent c2Live (0, 0)).map Tile.mergedFrom = some true ∧
    (cellContent (naiveGetNextMove c2Live).2 (0, 0)).map Tile.mergedFrom =
      some false ∧
    (cellContent c2Live (0, 0)).map Tile.previousPosition = some (some (1, 0)) ∧
    (cellContent (naiveGetNextMove c2Live).2 (0, 0)).map Tile.previousPosition =
      some (some (0, 0)) ∧
    valueGrid (naiveGetNextMove c2Live).2 = valueGrid c2Live :=
  ⟨by decide, by decide, by decide, by decide, by decide, by decide⟩

/-- C10: `move` on a terminated game state — `over`, or `won` without
`keepPlaying` — returns immediately: the state comes back unchanged, no
tile is spawned and the actuator is not invoked. -/
theorem C10_terminated_move_noop (s : GameState) (d : Fin 4) (o : SpawnOracle)
    (h : isGameTerminated s = true) :
    moveGM s d o = (s, { spawned := false, actuated := false }) := by
  unfold moveGM
  rw [if_pos h]

/-- Witness for C10 at a concrete terminated state. -/
theorem C10_witness :
    isGameTerminated c10State = true ∧
    moveGM c10State 0 oracle0 = (c10State, { spawned := false, actuated := false }) :=
  ⟨rfl, C10_terminated_move_noop c10State 0 oracle0 rfl⟩

set_option maxRecDepth 100000 in
/-- C3 counterexample: already at depth 1 (within the claim's "depth at
most 2") on a small fixed board — a single `8` in the corner — the two
searches disagree: the expectimax strategy picks direction 1 while the
alpha-beta strategy picks direction 2, although both directions are legal.
The divergence comes from the alpha-beta chance layer: it evaluates only a
random sample of up to 3 empty cells, with an independent `Math.random`
shuffle per top-level direction (here: direction 1 samples the reversed
cell list), and it combines the two spawns by
`min(value, 0.9·v₂, 0.1·v₄)` rather than by the 0.9/0.1-weighted sum. -/
theorem C3_counterexample :
    advancedGetNextMove c3Board 1 = 1 ∧
    masterGetNextMove c3Board 1 c3Samplers = 2 ∧
    tryMoveB c3Board 1 (buildCopyT c3Board) = true ∧
    tryMoveB c3Board 2 (buildCopyT c3Board) = true :=
  ⟨by with_unfolding_all rfl, by with_unfolding_all rfl, by decide, by decide⟩

/-- C3 (amended): when every top-level direction resolves its chance-layer
cell sample with the same sampler, the alpha-beta strategy and the
expectimax strategy choose the same top-level direction, at every depth and
on every board.  Both probe legality with `tryMove`, which never mutates
the probed copy, so within each strategy every legal direction receives
the same score and the first legal direction wins in both searches; with
independent per-direction samplers the chosen directions can differ (see
the counterexample). -/
theorem C3_agree_under_shared_sampler (live : Grid) (depth : Nat)
    (smp : List Pos → List Pos) :
    masterGetNextMove live depth (fun _ => smp) =
      advancedGetNextMove live depth := by
  simp only [masterGetNextMove, advancedGetNextMove]
  exact pickBest_const_eq _ _ _

set_option maxRecDepth 40000 in
/-- C5: merge-once — on every well-formed coherent 4×4 board and every
single move, no tile produced by a merge participates in a second merge
within that move (every merge the traversal records saw both parents
unmarked); and resolving the row `{(0,0):2, (1,0):2, (2,0):2}` leftward
yields exactly `{(0,0):4, (1,0):2}` with a score increase of 4. -/
theorem C5_merge_once_and_row_scenario (g : Grid) (d : Fin 4)
    (hwf : wellFormed g = true) (hcoh : coherent g = true)
    (hsz : g.size = 4) :
    (∀ e ∈ (moveCore g d).events,
        e.movingHadMerged = false ∧ e.nextHadMerged = false) ∧
    valueGrid (moveCore c5Row 3).grid = valueGrid c5After ∧
    (moveCore c5Row 3).score = 4 :=
  ⟨moveCore_merge_once g d hwf hcoh hsz, by decide, by decide⟩

set_option maxRecDepth 40000 in
/-- Witness for C5 on the scenario row itself. -/
theorem C5_witness :
    wellFormed c5Row = true ∧ coherent c5Row = true ∧ c5Row.size = 4 ∧
    ∀ e ∈ (moveCore c5Row 3).events,
      e.movingHadMerged = false ∧ e.nextHadMerged = false :=
  ⟨by decide, by decide, rfl,
   (C5_merge_once_and_row_scenario c5Row 3 (by decide) (by decide) rfl).1⟩

/-- C6: `movesAvailable` is `false` iff the board has no empty in-bounds
cell and no two orthogonally adjacent occupied cells of equal value; and it
is literally the disjunction of `cellsAvailable` and the adjacent-equal
scan. -/
theorem C6_movesAvailable_iff (g : Grid) :
    (movesAvailable g = false ↔
      (¬ ∃ p : Pos, withinBounds g p = true ∧ cellContent g p = none) ∧
      ¬ ∃ (p : Pos) (t : Tile), cellContent g p = some t ∧
          ∃ (d : Fin 4) (t2 : Tile),
            cellContent g (padd p (getVector d)) = some t2 ∧
            t2.value = t.value) ∧
    movesAvailable g = (cellsAvailable g || tileMatchesAvailable g) := by
  refine ⟨?_, rfl⟩
  show (cellsAvailable g || tileMatchesAvailable g) = false ↔ _
  rw [Bool.or_eq_false_iff]
  constructor
  · rintro ⟨h1, h2⟩
    refine ⟨?_, ?_⟩
    · intro hex
      rw [cellsAvailable_iff.2 hex] at h1
      exact Bool.noConfusion h1
    · intro hex
      rw [tileMatchesAvailable_iff.2 hex] at h2
      exact Bool.noConfusion h2
  · rintro ⟨h1, h2⟩
    refine ⟨?_, ?_⟩
    · cases hc : cellsAvailable g with
      | false => rfl
      | true => exact absurd (cellsAvailable_iff.1 hc) h1
    · cases hc : tileMatchesAvailable g with
      | false => rfl
      | true => exact absurd (tileMatchesAvailable_iff.1 hc) h2

/-- C4: on a non-terminated state, a move is accepted — actuator invoked,
new tile spawned, state advanced — iff the slide/merge phase changed the
board's occupancy/value projection (iff some tile changed cell or merged);
a rejected move changes no score, spawns nothing, actuates nothing, and
keeps the `over`/`won`/`keepPlaying` flags and the board projection. -/
theorem C4_accept_iff_change (s : GameState) (d : Fin 4) (o : SpawnOracle)
    (hinv : StateInv s) (hterm : isGameTerminated s = false) :
    ((moveGM s d o).2.actuated = true ↔
      valueGrid (moveCore s.grid d).grid ≠ valueGrid s.grid) ∧
    ((moveGM s d o).2.actuated = true → (moveGM s d o).2.spawned = true) ∧
    ((moveGM s d o).2.actuated = false →
      (moveGM s d o).1.score = s.score ∧ (moveGM s d o).2.spawned = false ∧
      (moveGM s d o).1.over = s.over ∧ (moveGM s d o).1.won = s.won ∧
      (moveGM s d o).1.keepPlaying = s.keepPlaying ∧
      valueGrid (moveGM s d o).1.grid = valueGrid s.grid) := by
  obtain ⟨hwf, hcoh, _⟩ := hinv
  simp only [moveGM, hterm, Bool.false_eq_true, if_false]
  cases hmv : (moveCore s.grid d).moved with
  | true =>
    rw [if_pos rfl]
    refine ⟨⟨fun _ => (legal_iff_moved s.grid d hwf hcoh).mpr hmv, fun _ => rfl⟩,
      ?_, ?_⟩
    · intro _
      show (addRandomTile (moveCore s.grid d).grid o).2 = true
      rw [addRandomTile_spawned]
      exact (moveCore_changes s.grid d hwf hcoh hmv).2
    · intro h
      exact Bool.noConfusion h
  | false =>
    rw [if_neg (by exact fun h => Bool.noConfusion h)]
    refine ⟨⟨fun h => Bool.noConfusion h, ?_⟩, ?_, ?_⟩
    · intro hne
      exfalso
      apply hne
      rw [moveCore_not_moved s.grid d hwf hcoh hmv]
      exact valueGrid_prepare s.grid
    · intro h
      exact Bool.noConfusion h
    · intro _
      refine ⟨rfl, rfl, rfl, rfl, rfl, ?_⟩
      show valueGrid (moveCore s.grid d).grid = valueGrid s.grid
      rw [moveCore_not_moved s.grid d hwf hcoh hmv]
      exact valueGrid_prepare s.grid

set_option maxRecDepth 40000 in
/-- Witness for C4 at a concrete running state, direction left (legal). -/
theorem C4_witness :
    StateInv c4State ∧ isGameTerminated c4State = false ∧
    ((moveGM c4State 3 oracle0).2.actuated = true ↔
      valueGrid (moveCore c4State.grid 3).grid ≠ valueGrid c4State.grid) :=
  ⟨⟨by decide, by decide, by decide⟩, rfl,
   (C4_accept_iff_change c4State 3 oracle0
     ⟨by decide, by decide, by decide⟩ rfl).1⟩

/-- C7: from any invariant-satisfying state the score is non-decreasing
across every sequence of moves, and each accepted move adds to the score
exactly the sum of the values of the merged tiles created during that move
(each positive; the sum is zero when no merge happened, the event list
being empty). -/
theorem C7_score_monotone_and_exact (s : GameState) (hinv : StateInv s) :
    (∀ l : List (Fin 4 × SpawnOracle), s.score ≤ (playMoves s l).score) ∧
    (∀ (d : Fin 4) (o : SpawnOracle), isGameTerminated s = false →
      (moveGM s d o).2.actuated = true →
      (moveGM s d o).1.score = s.score + sumEvents (moveCore s.grid d).events) ∧
    (∀ d : Fin 4, ∀ e ∈ (moveCore s.grid d).events, 0 < e.value) := by
  obtain ⟨hwf, hcoh, hpv⟩ := hinv
  refine ⟨fun l => (playMoves_mono l s ⟨hwf, hcoh, hpv⟩).2, ?_, ?_⟩
  · intro d o hterm hact
    rw [moveGM] at hact ⊢
    rw [if_neg (by rw [hterm]; exact fun h => Bool.noConfusion h)] at hact ⊢
    cases hmv : (moveCore s.grid d).moved with
    | true =>
      rw [if_pos rfl]
      show s.score + (moveCore s.grid d).score = _
      rw [moveCore_score_eq_events]
    | false =>
      rw [hmv] at hact
      rw [if_neg (fun h => Bool.noConfusion h)] at hact
      exact Bool.noConfusion hact
  · intro d
    exact (moveCore_posInv s.grid d hwf hcoh hpv).2.2.2

set_option maxRecDepth 40000 in
/-- Witness for C7 at a concrete running state and a one-move sequence. -/
theorem C7_witness :
    StateInv c4State ∧
    c4State.score ≤ (playMoves c4State [(3, oracle0)]).score :=
  ⟨⟨by decide, by decide, by decide⟩,
   (C7_score_monotone_and_exact c4State ⟨by decide, by decide, by decide⟩).1
     [(3, oracle0)]⟩

/-- C8: at positive depth, the expectimax chance layer returns the average
over all empty cells of `0.9 ×` the depth-decremented move-layer value with
a `2` spawned in that cell `+ 0.1 ×` the move-layer value with a `4`
spawned there; with no empty cell it returns the static evaluation. -/
theorem C8_chance_layer_average (live g : Grid) (d : Nat) :
    (availableCellsList g ≠ [] →
      expectimax live (d + 1) g false =
        ((availableCellsList g).map (fun c =>
            (9 / 10 : ℚ) *
              expectimax live d (insertTile (buildCopyT g) (mkTile c 2)) true +
            (1 / 10 : ℚ) *
              expectimax live d (insertTile (buildCopyT g) (mkTile c 4)) true)).sum /
          ((availableCellsList g).length : ℚ)) ∧
    (availableCellsList g = [] →
      expectimax live (d + 1) g false = evalAdvanced g) := by
  constructor
  · intro hne
    have hemp : (availableCellsList g).isEmpty = false := by
      cases hl : availableCellsList g with
      | nil => exact absurd hl hne
      | cons a as => rfl
    show (if (availableCellsList g).isEmpty then evalAdvanced g else _) = _
    rw [hemp, if_neg (fun h => Bool.noConfusion h)]
    rw [expChanceStep_fold (fun gw => expectimax live d gw true) g
      (availableCellsList g) 0 0]
    rw [zero_add, zero_add]
  · intro hl
    show (if (availableCellsList g).isEmpty then evalAdvanced g else _) = _
    rw [hl]
    rfl

set_option maxRecDepth 40000 in
/-- Witness for C8 on a board with fifteen empty cells. -/
theorem C8_witness :
    availableCellsList c1Copy ≠ [] ∧
    expectimax c1Copy 1 c1Copy false =
      ((availableCellsList c1Copy).map (fun c =>
          (9 / 10 : ℚ) *
            expectimax c1Copy 0 (insertTile (buildCopyT c1Copy) (mkTile c 2)) true +
          (1 / 10 : ℚ) *
            expectimax c1Copy 0 (insertTile (buildCopyT c1Copy) (mkTile c 4)) true)).sum /
        ((availableCellsList c1Copy).length : ℚ) :=
  ⟨by decide, (C8_chance_layer_average c1Copy c1Copy 0).1 (by decide)⟩

/-- C9: the top-level `getNextMove` of the expectimax strategy and of the
alpha-beta strategy is a total function; it returns the default direction 0
when no direction is legal, and a legal direction whenever one exists. -/
theorem C9_getNextMove_default_and_legal (live : Grid) (depth : Nat)
    (samplers : Fin 4 → List Pos → List Pos) :
    ((∀ d : Fin 4, tryMoveB live d (buildCopyT live) = false) →
      advancedGetNextMove live depth = 0 ∧
      masterGetNextMove live depth samplers = 0) ∧
    ((∃ d : Fin 4, tryMoveB live d (buildCopyT live) = true) →
      tryMoveB live (advancedGetNextMove live depth) (buildCopyT live) = true ∧
      tryMoveB live (masterGetNextMove live depth samplers) (buildCopyT live)
        = true) := by
  constructor
  · intro h
    exact ⟨pickBest_default _ _ h, pickBest_default _ _ h⟩
  · intro h
    exact ⟨pickBest_probe_true _ _ h, pickBest_probe_true _ _ h⟩

set_option maxRecDepth 40000 in
/-- Witness for C9: a dead board falls back to direction 0, and a board
with legal directions gets a legal one. -/
theorem C9_witness :
    (advancedGetNextMove fullBoard 1 = 0 ∧
     masterGetNextMove fullBoard 1 (fun _ => id) = 0) ∧
    (tryMoveB c3Board (advancedGetNextMove c3Board 1) (buildCopyT c3Board)
       = true ∧
     tryMoveB c3Board (masterGetNextMove c3Board 1 (fun _ => id))
       (buildCopyT c3Board) = true) :=
  ⟨(C9_getNextMove_default_and_legal fullBoard 1 (fun _ => id)).1 (by decide),
   (C9_getNextMove_default_and_legal c3Board 1 (fun _ => id)).2
     ⟨1, by decide⟩⟩

end Game2048
